import Mathlib

/-!
Shallow embedding of the `tshttpurl` repository (files `src/IPv6.ts` and
`src/HttpURL.ts`) and proofs about it.

Strings are modelled as `List Char` (JavaScript strings are sequences of
UTF-16 code units; all inputs relevant here are in the basic plane, where
code units and characters coincide).  JavaScript `bigint` values appearing
in the source are all non-negative here, so they are modelled as `Nat`;
quantities that can be negative in the source (indices, `missingParts`,
ports) are modelled as `Int`.  A JavaScript function that can `throw` is
modelled as returning `Except String α`, carrying the error message.
-/

instance {ε α : Type} [DecidableEq ε] [DecidableEq α] : DecidableEq (Except ε α) :=
  fun a b =>
    match a, b with
    | .ok x, .ok y =>
      if h : x = y then .isTrue (by rw [h]) else .isFalse (by simp [h])
    | .error x, .error y =>
      if h : x = y then .isTrue (by rw [h]) else .isFalse (by simp [h])
    | .ok _, .error _ => .isFalse (by simp)
    | .error _, .ok _ => .isFalse (by simp)

namespace TsUrl

/-- JavaScript `\s` character class, restricted to the code points that can
actually occur in this development (ASCII whitespace and NBSP). -/
def isJsSpace (c : Char) : Bool :=
  c = ' ' || c = '\t' || c = '\n' || c = '\r' || c = '\x0b' || c = '\x0c' || c = '\u00A0'

/-- The character class `[0-9a-f]` under the case-insensitive `i` flag. -/
def isHexDigitChar (c : Char) : Bool :=
  ('0' ≤ c && c ≤ '9') || ('a' ≤ c && c ≤ 'f') || ('A' ≤ c && c ≤ 'F')

/-- The character class `\d`, i.e. `[0-9]`. -/
def isDecDigitChar (c : Char) : Bool :=
  '0' ≤ c && c ≤ '9'

/-- Numeric value of a hexadecimal digit (any case); `0` on other input. -/
def hexDigitVal (c : Char) : Nat :=
  if '0' ≤ c && c ≤ '9' then c.toNat - '0'.toNat
  else if 'a' ≤ c && c ≤ 'f' then c.toNat - 'a'.toNat + 10
  else if 'A' ≤ c && c ≤ 'F' then c.toNat - 'A'.toNat + 10
  else 0

/-- The lowercase hexadecimal digit for `n < 16`, as produced by
JavaScript `Number.prototype.toString(16)` / `BigInt.prototype.toString(16)`. -/
def hexDigitChar (n : Nat) : Char :=
  if n < 10 then Char.ofNat ('0'.toNat + n) else Char.ofNat ('a'.toNat + n - 10)

/-- The decimal digit character for `n < 10`. -/
def decDigitChar (n : Nat) : Char :=
  Char.ofNat ('0'.toNat + n)

/-- Value of an all-hex-digit string read in base 16; models
`parseInt(value, 16)` on a string that is entirely hexadecimal digits. -/
def parseHexNat (l : List Char) : Nat :=
  l.foldl (fun acc c => 16 * acc + hexDigitVal c) 0

/-- Value of an all-decimal-digit string read in base 10; models
`parseInt(value, 10)` on a string that is entirely decimal digits. -/
def parseDecNat (l : List Char) : Nat :=
  l.foldl (fun acc c => 10 * acc + (c.toNat - '0'.toNat)) 0

/-- Hex rendering of a positive number, most significant digit first, no
leading zeros (empty for `0`): helper for `natToHex`.  The first argument
is fuel making the recursion structural; any fuel `≥ n` gives the digits. -/
def natToHexGo : Nat → Nat → List Char
  | 0, _ => []
  | fuel + 1, n =>
    if n = 0 then [] else natToHexGo fuel (n / 16) ++ [hexDigitChar (n % 16)]

/-- Models JavaScript `n.toString(16)` for a non-negative integer:
lowercase hex digits, no leading zeros, `"0"` for zero. -/
def natToHex (n : Nat) : List Char :=
  if n = 0 then ['0'] else natToHexGo n n

/-- Decimal rendering helper (empty for `0`), fuel-structured like
`natToHexGo`. -/
def natToDecGo : Nat → Nat → List Char
  | 0, _ => []
  | fuel + 1, n =>
    if n = 0 then [] else natToDecGo fuel (n / 10) ++ [decDigitChar (n % 10)]

/-- Models JavaScript `n.toString(10)` / `String(n)` for a non-negative
integer: decimal digits, no leading zeros, `"0"` for zero. -/
def natToDec (n : Nat) : List Char :=
  if n = 0 then ['0'] else natToDecGo n n

/-- Models `String.prototype.padStart(len, c)`. -/
def padStart (len : Nat) (c : Char) (l : List Char) : List Char :=
  List.replicate (len - l.length) c ++ l

/-- `'0:'.repeat(m)`: the body of the replacement-building loop of
`IPv6.fromString`. -/
def zeroColonRep (m : Nat) : List Char :=
  (List.replicate m (['0', ':'] : List Char)).flatten

/-- Fixed-width base-16 rendering: exactly `k` lowercase hex digits of
`n % 16^k`, most significant first. -/
def fixedHex : Nat → Nat → List Char
  | 0, _ => []
  | k + 1, n => fixedHex k (n / 16) ++ [hexDigitChar (n % 16)]

/-- Models `value.replace(/\s+/, '')`: the regex has no `g` flag, so only
the first (leftmost, maximal) whitespace run is removed. -/
def stripFirstSpaceRun : List Char → List Char
  | [] => []
  | c :: cs => if isJsSpace c then cs.dropWhile isJsSpace else c :: stripFirstSpaceRun cs

/-- Models `String.prototype.lastIndexOf` for a single character:
index of the last occurrence, `-1` if absent. -/
def lastIndexOf (c : Char) : List Char → Int
  | [] => -1
  | a :: as =>
    let r := lastIndexOf c as
    if 0 ≤ r then r + 1 else if a = c then 0 else -1

/-- Models `String.prototype.indexOf` for a single character:
index of the first occurrence, `-1` if absent. -/
def jsIndexOf (c : Char) : List Char → Int
  | [] => -1
  | a :: as =>
    if a = c then 0 else
    let r := jsIndexOf c as
    if 0 ≤ r then r + 1 else -1

/-- Number of non-overlapping matches of `/::/g`, scanning left to right;
models `IPv6.matchCount(IPv6.COLONSREGEX, value)`. -/
def countColonColon : List Char → Nat
  | [] => 0
  | [_] => 0
  | a :: b :: rest =>
    if a = ':' ∧ b = ':' then countColonColon rest + 1
    else countColonColon (b :: rest)

/-- Models `value.replace(/::/g, repl)`: every non-overlapping occurrence of
`::` (scanning left to right, replacement text not rescanned) is replaced. -/
def replaceColonColon (repl : List Char) : List Char → List Char
  | [] => []
  | [c] => [c]
  | a :: b :: rest =>
    if a = ':' ∧ b = ':' then repl ++ replaceColonColon repl rest
    else a :: replaceColonColon repl (b :: rest)

namespace IPv6

def MAX : Nat := 2 ^ 128 - 1

def IPV4PREFIX : Nat := 0xFFFF00000000

def IPV4MASK : Nat := 0xFFFFffffFFFFffffFFFFffff00000000

/-- Models `IPv6.parseHex`: the argument must match `/^(\d|[a-f])+$/i`
(one or more hex digits, any case), otherwise a `RangeError` is thrown.
The `isFinite` check of the source is always true in this integer model. -/
def parseHex (value : List Char) : Except String Nat :=
  if value ≠ [] ∧ value.all isHexDigitChar then
    .ok (parseHexNat value)
  else
    .error "value is not a hexidecimal digit"

/-- Models `IPv6.parseDecimal`: the argument must match `/^\d+$/`
(one or more decimal digits), otherwise a `RangeError` is thrown. -/
def parseDecimal (value : List Char) : Except String Nat :=
  if value ≠ [] ∧ value.all isDecDigitChar then
    .ok (parseDecNat value)
  else
    .error "value is not a decimal digit"

/-- One group of the final accumulation loop of `IPv6.fromString`
(`parseHex` with its error re-wrapped, then the `[0, 0xFFFF]` range check;
the `intVal < 0` half of the check cannot fire for an unsigned value). -/
def parseGroup (value : List Char) : Except String Nat :=
  match parseHex value with
  | .error e => .error ("Invalid IP v 6 address: RangeError: " ++ e)
  | .ok v => if 0xFFFF < v then .error "Invalid IP v 6 address" else .ok v

/-- The final accumulation loop of `IPv6.fromString`:
`for (let part = parts.pop(); part; part = parts.pop())`.
`rparts` is the part list already reversed (pop takes from the end); the
loop also stops early, without error, at an empty part (falsy `""`). -/
def groupLoop (hexStr : List Char) : List (List Char) → Except String (List Char)
  | [] => .ok hexStr
  | p :: rest =>
    if p = [] then .ok hexStr
    else do
      let v ← parseGroup p
      groupLoop (padStart 4 '0' (natToHex v) ++ hexStr) rest

/-- The embedded-IPv4 quad handling of `IPv6.fromString`: the four
dot-separated octets are parsed as decimal, range-checked to `[0, 255]`,
and rendered as two zero-padded hex digits each. -/
def quadBytes : List (List Char) → Except String (List Char)
  | [] => .ok []
  | q :: rest => do
    let v ← match parseDecimal q with
      | .error e => .error ("Invalid IP v 4 address: RangeError: " ++ e)
      | .ok v => pure v
    if 255 < v then .error "Invalid IP v 4 address"
    else do
      let tail ← quadBytes rest
      pure (padStart 2 '0' (natToHex v) ++ tail)

/-- The elision-expansion and patching step of `IPv6.fromString`: counting
`::` occurrences, substituting `':' + '0:'.repeat(missingParts)` for the
(unique) elision, then patching a leading or trailing bare `:` with a `0`. -/
def expandStep (hasIPv4 : Bool) (value : List Char) : Except String (List Char) :=
  let colonColons := countColonColon value
  if 1 < colonColons then
    .error "too many \"::\" in the IPv6 string"
  else
    let value :=
      if colonColons = 1 then
        let colons : Int := value.count ':'
        let missingParts : Int := (if hasIPv4 then 7 else 8) - colons
        let replacement := ':' :: zeroColonRep missingParts.toNat
        replaceColonColon replacement value
      else value
    let value := if value.head? = some ':' then '0' :: value else value
    let value := if value.getLast? = some ':' then value ++ ['0'] else value
    .ok value

/-- The tail of `IPv6.fromString`: the total-group-count check
(`8 != hexStr.length/4 + parts.length`), the accumulation loop over the
remaining `:`-groups, and the final `BigInt('0x' + hexStr)` conversion. -/
def finishGroups (hexStr : List Char) (parts : List (List Char)) : Except String Nat :=
  if hexStr.length / 4 + parts.length ≠ 8 then .error "Invalid address"
  else
    match groupLoop hexStr parts.reverse with
    | .error e => .error e
    | .ok hexStr => .ok (parseHexNat hexStr)

/-- Body of `IPv6.fromString` after the initial whitespace removal. -/
def fromStripped (value : List Char) : Except String Nat :=
  let hasIPv4 := decide (0 < lastIndexOf '.' value)
  let noColon := jsIndexOf ':' value < 0
  -- the source first prepends '::FFFF:' and then throws when `!hasIPv4`;
  -- since the prefixed value is unused on the throwing path, the check is
  -- performed first here.
  if noColon ∧ hasIPv4 = false then .error "Invalid address"
  else
    let value :=
      if noColon then (':' :: ':' :: 'F' :: 'F' :: 'F' :: 'F' :: ':' :: []) ++ value
      else value
    match expandStep hasIPv4 value with
    | .error e => .error e
    | .ok value =>
      let parts := value.splitOn ':'
      if hasIPv4 then
        let quads := (parts.getLastD []).splitOn '.'
        if quads.length ≠ 4 then .error "Invalid IP v 4 address"
        else
          match quadBytes quads with
          | .error e => .error e
          | .ok hexStr => finishGroups hexStr parts.dropLast
      else finishGroups [] parts

/-- Models the `IPv6.fromString` helper: parses an IPv6/IPv4 string to its
128-bit value (as an unbounded natural; range checks live in `construct`). -/
def fromString (value : List Char) : Except String Nat :=
  fromStripped (stripFirstSpaceRun value)

/-- The possible constructor/argument values `IPv6 | bigint | string | null`
of the source's dynamically-typed entry points.  An `ip` always carries the
value of a constructed instance (hence `0 ≤ v ≤ MAX` at every use site). -/
inductive Arg where
  | ip (v : Nat)
  | big (i : Int)
  | str (s : List Char)
  | nil
deriving DecidableEq

/-- Models `IPv6.toBigInt`: `null`/`undefined` is rejected, an instance
yields its value, a string is parsed, a bigint passes through. -/
def toBigInt : Arg → Except String Int
  | .nil => .error "missing parameter"
  | .ip v => .ok v
  | .big i => .ok i
  | .str s => (fromString s).map Int.ofNat

/-- Models the `IPv6` constructor: `toBigInt` followed by the range checks. -/
def construct (value : Arg) : Except String Nat := do
  let v ← toBigInt value
  if (MAX : Int) < v then
    throw "value has more than 128 bits"
  else if v < 0 then
    throw "value is negative"
  else
    pure v.toNat

/-- Models `IPv6.isIPv4` on a raw 128-bit value:
`IPV4PREFIX === (IPV4MASK & value)`. -/
def isIPv4 (v : Nat) : Bool :=
  IPV4PREFIX = Nat.land IPV4MASK v

/-- Chunks of exactly 4 characters, left to right; models
`hexStr.match(/[0-9a-f]{4}/gi)` on an all-hex-digit string (a leftover of
fewer than 4 characters is not matched). -/
def chunksOf4 : List Char → List (List Char)
  | a :: b :: c :: d :: rest => [a, b, c, d] :: chunksOf4 rest
  | _ => []

/-- Chunks of exactly 2 characters, left to right; models
`hexStr.match(/[0-9a-f]{2}/gi)` on an all-hex-digit string. -/
def chunksOf2 : List Char → List (List Char)
  | a :: b :: rest => [a, b] :: chunksOf2 rest
  | _ => []

/-- One iteration of the zero-streak scan in `IPv6.toIPv6String`.  The
state is `(current_streak, current_start, longest_streak, longest_start)`
with the two start indices initialised to `-1`. -/
def streakStep (st : Nat × Int × Nat × Int) (ia : Nat × Nat) : Nat × Int × Nat × Int :=
  let (currentStreak, currentStart, longestStreak, longestStart) := st
  let (i, part) := ia
  if part = 0 then
    let currentStreak := currentStreak + 1
    let currentStart := if currentStart < 0 then (i : Int) else currentStart
    if longestStreak < currentStreak then
      (currentStreak, currentStart, currentStreak, currentStart)
    else
      (currentStreak, currentStart, longestStreak, longestStart)
  else
    (0, -1, longestStreak, longestStart)

/-- The zero-streak scan of `IPv6.toIPv6String` over the eight group values,
returning `(longest_streak, longest_start)`. -/
def longestZeroRun (intParts : List Nat) : Nat × Int :=
  let st := intParts.enum.foldl streakStep (0, -1, 0, -1)
  (st.2.2.1, st.2.2.2)

/-- The `else` (non-dot-decimal) branch of `IPv6.toIPv6String`: split the
padded 32-digit hex rendering into eight 4-digit groups, find the longest
(leftmost on ties) streak of zero groups, and either join the raw 4-digit
groups with `:` (streak ≤ 1) or piece the string together around a `::`. -/
def toIPv6StringCore (v : Nat) : List Char :=
  let hexStr := padStart 32 '0' (natToHex v)
  let hexStrs := chunksOf4 hexStr
  let intParts := hexStrs.map parseHexNat
  let (longestStreak, longestStart) := longestZeroRun intParts
  if longestStreak ≤ 1 then
    List.intercalate [':'] hexStrs
  else
    (if longestStart = 0 then [':'] else []) ++
    ((intParts.enum.filter (fun p => (p.1 : Int) < longestStart)).map
      (fun p => natToHex p.2 ++ [':'])).flatten ++
    ((intParts.enum.filter (fun p => longestStart + (longestStreak : Int) ≤ (p.1 : Int))).map
      (fun p => ':' :: natToHex p.2)).flatten ++
    (if longestStart + (longestStreak : Int) = 8 then [':'] else [])

/-- The dotted-decimal rendering used by `IPv6.toIPv4String` on an
IPv4-mapped value: the unpadded hex rendering is cut into 2-digit bytes,
the last four bytes are re-rendered in decimal and joined with dots. -/
def ipv4Dotted (v : Nat) : List Char :=
  let hexStrs := chunksOf2 (natToHex v)
  let ints := (hexStrs.drop (hexStrs.length - 4)).map (fun h => natToDec (parseHexNat h))
  List.intercalate ['.'] ints

/-- Models `IPv6.toIPv6String` on a constructed value: dot-decimal form for
IPv4-mapped values when `dotDec` is set, else the core rendering. -/
def toIPv6String (v : Nat) (dotDec : Bool) : List Char :=
  if isIPv4 v && dotDec then
    (':' :: ':' :: 'f' :: 'f' :: 'f' :: 'f' :: ':' :: []) ++ ipv4Dotted v
  else
    toIPv6StringCore v

/-- Models `IPv6.toString` on a constructed value: dotted IPv4 form when
IPv4-mapped, else the canonical IPv6 form with default dot-decimal flag. -/
def toStringFn (v : Nat) : List Char :=
  if isIPv4 v then ipv4Dotted v else toIPv6String v true

/-- Models `IPv6.toIPv4String` on a constructed value.  On the failing
branch the source interpolates `ipv6.toString()`; since `isIPv4` is false
there, that call is exactly `toIPv6String v true`. -/
def toIPv4String (v : Nat) : Except String (List Char) :=
  if isIPv4 v then
    .ok (ipv4Dotted v)
  else
    .error ("Not an IPv4 address:  \"" ++ (toIPv6String v true).asString ++ "\"")

/-- Models static `IPv6.compare`: both arguments through `toBigInt` (errors
propagate), then signed integer comparison. -/
def compare (first second : Arg) : Except String Int := do
  let f ← toBigInt first
  let s ← toBigInt second
  pure (if f < s then -1 else if s < f then 1 else 0)

/-- Models static `IPv6.equals`: both `null` is true, exactly one `null` is
false, otherwise `compare == 0` with any thrown error caught and mapped to
the default `false`. -/
def equals (first second : Arg) : Bool :=
  if first = .nil then
    second = .nil
  else if second ≠ .nil then
    match compare first second with
    | .ok c => c = 0
    | .error _ => false
  else
    false

end IPv6

namespace HttpURL

/-- Abstract syntax of the (JavaScript-dialect) regular expressions used by
`HttpURL.regEx`: character classes, concatenation, prioritised alternation,
greedy star, greedy option, and numbered capture groups.  Counted
quantifiers of the source pattern are expanded into these constructors. -/
inductive RE where
  | eps
  | cls (p : Char → Bool)
  | cat (a b : RE)
  | alt (a b : RE)
  | star (a : RE)
  | opt (a : RE)
  | grp (i : Nat) (a : RE)

/-- Capture state: most recent captures first (a later write to the same
group shadows the earlier one, as in a backtracking engine). -/
abbrev Caps := List (Nat × List Char)

/-- Backtracking matcher in continuation-passing style, implementing the
standard JavaScript/PCRE leftmost semantics: alternation prefers its left
branch, `*` and `?` are greedy, captures record the consumed slice when the
group exits and are discarded when the engine backtracks past them.  An
iteration of `*` must consume input (the engine's empty-match loop guard).
`fuel` bounds the recursion depth and is chosen amply at the call site. -/
def mrun (fuel : Nat) (re : RE) (s : List Char) (caps : Caps)
    (k : List Char → Caps → Option Caps) : Option Caps :=
  match fuel with
  | 0 => none
  | fuel + 1 =>
    match re with
    | .eps => k s caps
    | .cls p =>
      match s with
      | [] => none
      | c :: rest => if p c then k rest caps else none
    | .cat a b => mrun fuel a s caps (fun s2 c2 => mrun fuel b s2 c2 k)
    | .alt a b =>
      match mrun fuel a s caps k with
      | some r => some r
      | none => mrun fuel b s caps k
    | .star a =>
      match mrun fuel a s caps
          (fun s2 c2 =>
            if s2.length < s.length then mrun fuel (.star a) s2 c2 k else none) with
      | some r => some r
      | none => k s caps
    | .opt a =>
      match mrun fuel a s caps k with
      | some r => some r
      | none => k s caps
    | .grp i a =>
      mrun fuel a s caps
        (fun s2 c2 => k s2 ((i, s.take (s.length - s2.length)) :: c2))

/-- A single mandatory character (case-sensitive). -/
def chr (c : Char) : RE := .cls (fun x => x = c)

/-- A literal letter under the `i` flag of the source pattern. -/
def chrCI (c : Char) : RE := .cls (fun x => x.toLower = c)

/-- Case-insensitive literal word, e.g. `http`. -/
def litCI (l : List Char) : RE :=
  l.foldr (fun c r => .cat (chrCI c) r) .eps

/-- `a{n}`: exactly `n` repetitions. -/
def repExact : Nat → RE → RE
  | 0, _ => .eps
  | n + 1, a => .cat a (repExact n a)

/-- `a{1,n}`: one mandatory copy then up to `n - 1` optional ones, greedy. -/
def repUpTo : Nat → RE → RE
  | 0, _ => .eps
  | n + 1, a => .cat a (optChain n a)
where
  optChain : Nat → RE → RE
    | 0, _ => .eps
    | n + 1, a => .opt (.cat a (optChain n a))

/-- `a+`. -/
def plus (a : RE) : RE := .cat a (.star a)

/-- JavaScript `\w`: `[A-Za-z0-9_]`. -/
def isWordChar (c : Char) : Bool :=
  ('A' ≤ c && c ≤ 'Z') || ('a' ≤ c && c ≤ 'z') || isDecDigitChar c || c = '_'

/-- `[\w-]`. -/
def isWordDash (c : Char) : Bool := isWordChar c || c = '-'

/-- The path character class `[-\w_\.!~*'():&=+\$,/]` (the apostrophe is
`Char.ofNat 39`). -/
def isPathChar (c : Char) : Bool :=
  isWordChar c || c = '-' || c = '.' || c = '!' || c = '~' || c = '*' ||
  c = Char.ofNat 39 || c = '(' || c = ')' || c = ':' || c = '&' || c = '=' ||
  c = '+' || c = '$' || c = ',' || c = '/'

/-- The query/fragment character class `[-\w_\.!~*'();&=+\$,/?:@[\]]`. -/
def isQueryChar (c : Char) : Bool :=
  isWordChar c || c = '-' || c = '.' || c = '!' || c = '~' || c = '*' ||
  c = Char.ofNat 39 || c = '(' || c = ')' || c = ';' || c = '&' || c = '=' ||
  c = '+' || c = '$' || c = ',' || c = '/' || c = '?' || c = ':' || c = '@' ||
  c = '[' || c = ']'

/-- `%[\da-f]{2}` under the `i` flag. -/
def pctRE : RE := .cat (chr '%') (.cat (.cls isHexDigitChar) (.cls isHexDigitChar))

/-- Transliteration of `HttpURL.regEx`, group for group.  The `^...$`
anchors are realised by `exec` requiring the whole input to be consumed. -/
def urlRE : RE :=
  -- ^\s*
  .cat (.star (.cls isJsSpace)) <|
  -- (?:(http|https):\/\/)?   group 1
  .cat (.opt (.cat (.grp 1 (.alt (litCI ('h' :: 't' :: 't' :: 'p' :: []))
                                 (litCI ('h' :: 't' :: 't' :: 'p' :: 's' :: []))))
                   (.cat (chr ':') (.cat (chr '/') (chr '/'))))) <|
  -- (?:((?:\d{1,3}\.){3}\d{1,3})|(?:\[([:\.\da-f]+)\])|(subdomains tld))
  .cat (.alt (.grp 2 (.cat (repExact 3 (.cat (repUpTo 3 (.cls isDecDigitChar)) (chr '.')))
                           (repUpTo 3 (.cls isDecDigitChar))))
       (.alt (.cat (chr '[') (.cat (.grp 3 (plus (.cls (fun c =>
                 c = ':' || c = '.' || isHexDigitChar c)))) (chr ']')))
             (.grp 4 (.cat
               (.star (.alt (.cat (.cls isWordChar) (chr '.'))
                            (.cat (.cls isWordChar)
                              (.cat (.star (.cls isWordDash))
                                (.cat (.cls isWordChar) (chr '.'))))))
               (.alt (.cls isWordChar)
                     (.cat (.cls isWordChar)
                       (.cat (.star (.cls isWordDash)) (.cls isWordChar)))))))) <|
  -- (?::(-?\d{1,10}))?   group 5
  .cat (.opt (.cat (chr ':') (.grp 5 (.cat (.opt (chr '-'))
                                           (repUpTo 10 (.cls isDecDigitChar)))))) <|
  -- (?:\/((?:(?:%[\da-f]{2})|[path chars])*))?   group 6
  .cat (.opt (.cat (chr '/') (.grp 6 (.star (.alt pctRE (.cls isPathChar)))))) <|
  -- (?:\?(...))?   group 7
  .cat (.opt (.cat (chr '?') (.grp 7 (.star (.alt pctRE (.cls isQueryChar)))))) <|
  -- (?:#(...))?   group 8
  .cat (.opt (.cat (chr '#') (.grp 8 (.star (.alt pctRE (.cls isQueryChar)))))) <|
  -- \s*$
  .star (.cls isJsSpace)

/-- Models `HttpURL.regEx.exec(url)`: anchored match over the whole input,
returning the capture state, or `none` when the pattern does not match. -/
def exec (s : List Char) : Option Caps :=
  mrun (1000 + 100 * s.length) urlRE s []
    (fun rest caps => if rest = [] then some caps else none)

/-- Capture group lookup: `parts[i]`, `none` when the group did not
participate in the match. -/
def capGet (caps : Caps) (i : Nat) : Option (List Char) :=
  (caps.find? (fun p => p.1 == i)).map (fun p => p.2)

/-- JavaScript truthiness of `parts[i]`: both `undefined` and the empty
string are falsy. -/
def truthy (o : Option (List Char)) : Bool :=
  match o with
  | none => false
  | some l => !l.isEmpty

/-- The single byte decoded from two hex digits is in the unreserved set
`[A-Za-z0-9._~-]`; condition of the percent-normalisation callback. -/
def isUnreservedByte (n : Nat) : Bool :=
  (0x41 ≤ n && n ≤ 0x5A) || (0x61 ≤ n && n ≤ 0x7A) || (0x30 ≤ n && n ≤ 0x39) ||
  n = 0x2D || n = 0x2E || n = 0x5F || n = 0x7E

/-- Models `url.replace(HttpURL.pctXX, ...)`: every `%xx` triplet (hex, any
case, scanning left to right, non-overlapping) is decoded when the byte is
unreserved (`decodeURIComponent`) and upper-cased otherwise. -/
def pctNormalize : List Char → List Char
  | '%' :: h1 :: h2 :: rest =>
    if isHexDigitChar h1 && isHexDigitChar h2 then
      let n := 16 * hexDigitVal h1 + hexDigitVal h2
      if isUnreservedByte n then
        Char.ofNat n :: pctNormalize rest
      else
        '%' :: h1.toUpper :: h2.toUpper :: pctNormalize rest
    else
      '%' :: pctNormalize (h1 :: h2 :: rest)
  | c :: rest => c :: pctNormalize rest
  | [] => []

/-- ASCII lowercasing of a string, models `String.prototype.toLowerCase`
on the inputs of this grammar. -/
def toLowerStr (l : List Char) : List Char :=
  l.map Char.toLower

/-- Models `parseInt(s, 10)` on a string matching `-?\d{1,10}`. -/
def parseIntDec : List Char → Int
  | '-' :: ds => -(parseDecNat ds : Int)
  | ds => (parseDecNat ds : Int)

/-- A query parameter: name and optional value, as produced by the
`QueryParam` constructor from one `key` or `key=value` token (the
separate-`value`-argument form of the constructor is not reachable from
URL parsing and is not modelled). -/
structure QueryParam where
  name : List Char
  value : Option (List Char)
deriving DecidableEq

/-- `QueryParam` construction from a token: split at the first `=` when
present (the part after it may be empty), otherwise the value stays
`undefined`. -/
def QueryParam.ofToken (tok : List Char) : QueryParam :=
  let eqIdx := jsIndexOf '=' tok
  if 0 ≤ eqIdx then
    { name := tok.take eqIdx.toNat, value := some (tok.drop (eqIdx.toNat + 1)) }
  else
    { name := tok, value := none }

/-- Models `QueryParam.prototype.toString`: `name=value` when the value is
truthy (non-empty), else just the name. -/
def QueryParam.render (q : QueryParam) : List Char :=
  match q.value with
  | some v => if v ≠ [] then q.name ++ '=' :: v else q.name
  | none => q.name

/-- JavaScript ordinal string comparison `a < b` (lexicographic by code
unit). -/
def strLt : List Char → List Char → Bool
  | [], [] => false
  | [], _ :: _ => true
  | _ :: _, [] => false
  | a :: as, b :: bs => if a < b then true else if b < a then false else strLt as bs

/-- Models static `QueryParam.compare`: by name, then by value with an
absent value read as the empty string. -/
def QueryParam.cmp (a b : QueryParam) : Int :=
  let av := a.value.getD []
  let bv := b.value.getD []
  let comp : Int := if strLt a.name b.name then -1 else if strLt b.name a.name then 1 else 0
  if comp = 0 then
    if strLt av bv then -1 else if strLt bv av then 1 else 0
  else comp

/-- Stable insertion into a sorted list (an element equal under `cmp` goes
after the existing ones); models the stable `Array.prototype.sort`. -/
def insertSorted (cmp : α → α → Int) (x : α) : List α → List α
  | [] => [x]
  | y :: ys => if cmp x y < 0 then x :: y :: ys else y :: insertSorted cmp x ys

/-- Stable sort by a comparator; models `Array.prototype.sort(fn)`. -/
def sortByCmp (cmp : α → α → Int) (l : List α) : List α :=
  l.foldl (fun acc x => insertSorted cmp x acc) []

/-- Models `parts[7].match(HttpURL.qSep)` with `qSep = /[^&;]+/g`: the
maximal runs of non-separator characters. -/
def queryTokens (l : List Char) : List (List Char) :=
  (l.splitOnP (fun c => c = '&' || c = ';')).filter (fun t => t ≠ [])

/-- The path-resolution loop of the `HttpURL` constructor: walk the
`/`-split segments with a stack; empty and `.` segments are skipped, `..`
pops (an empty stack is the `Invalid path` error), anything else is pushed. -/
def resolvePath (stack : List (List Char)) : List (List Char) → Except String (List (List Char))
  | [] => .ok stack
  | seg :: rest =>
    if seg = [] ∨ seg = ['.'] then resolvePath stack rest
    else if seg = ['.', '.'] then
      if stack = [] then .error "Invalid path"
      else resolvePath stack.dropLast rest
    else resolvePath (stack ++ [seg]) rest

/-- The constructed `HttpURL` value object. -/
structure URL where
  scheme : List Char
  ipAddress : Option Nat
  host : List Char
  port : Int
  path : List (List Char)
  query : List QueryParam
  fragment : Option (List Char)
  isDir : Bool
deriving DecidableEq

/-- Models the `HttpURL` constructor: percent normalisation, the anchored
grammar match, then field-by-field extraction and normalisation. -/
def parse (url : List Char) : Except String URL := do
  let url := pctNormalize url
  let parts ← match exec url with
    | none => throw "Invalid URL"
    | some caps => pure caps
  let scheme := if truthy (capGet parts 1) then toLowerStr ((capGet parts 1).getD []) else ['h', 't', 't', 'p']
  let (ipAddress, host) ←
    if truthy (capGet parts 2) then do
      let v ← IPv6.construct (.str ((capGet parts 2).getD []))
      pure (some v, IPv6.toStringFn v)
    else if truthy (capGet parts 3) then do
      let v ← IPv6.construct (.str ((capGet parts 3).getD []))
      pure (some v, IPv6.toStringFn v)
    else
      pure (none, toLowerStr ((capGet parts 4).getD []))
  let port : Int ←
    if truthy (capGet parts 5) then
      let p := parseIntDec ((capGet parts 5).getD [])
      if p < 0 ∨ 65535 < p then throw "Invalid port" else pure p
    else
      pure (if scheme = ['h', 't', 't', 'p'] then 80 else 443)
  let rawPath := (capGet parts 6).getD []
  let path ←
    if truthy (capGet parts 6) then
      resolvePath [] (rawPath.splitOn '/')
    else
      pure []
  let isDir := path.isEmpty || (rawPath.getLast? == some '/')
  let query :=
    if truthy (capGet parts 7) then
      sortByCmp QueryParam.cmp ((queryTokens ((capGet parts 7).getD [])).map QueryParam.ofToken)
    else []
  let fragment := if truthy (capGet parts 8) then some ((capGet parts 8).getD []) else none
  pure { scheme, ipAddress, host, port, path, query, fragment, isDir }

/-- Models `HttpURL.prototype.toString`. -/
def render (u : URL) : List Char :=
  let theHost :=
    match u.ipAddress with
    | some v => if !IPv6.isIPv4 v then '[' :: u.host ++ [']'] else u.host
    | none => u.host
  u.scheme ++ (':' :: '/' :: '/' :: []) ++ theHost ++ [':'] ++ natToDec u.port.toNat ++
  (if u.path.length ≠ 0 then '/' :: List.intercalate ['/'] u.path else []) ++
  (if u.isDir then ['/'] else []) ++
  (if u.query.length ≠ 0 then '?' :: List.intercalate ['&'] (u.query.map QueryParam.render) else []) ++
  (u.fragment.getD [])

end HttpURL

/-- Every part is non-empty and contains no colon: the shape of the group
lists whose colon-joins the expansion lemmas describe. -/
def GoodParts (ps : List (List Char)) : Prop :=
  ∀ p ∈ ps, p ≠ [] ∧ ':' ∉ p

/-! ## Digit and rendering lemmas -/

theorem charLe_toNat {a b : Char} (h : a ≤ b) : a.toNat ≤ b.toNat := by
  rw [Char.le_def, UInt32.le_def] at h
  exact h

theorem hexDigitVal_lt (c : Char) : hexDigitVal c < 16 := by
  unfold hexDigitVal
  split
  · rename_i h
    simp only [Bool.and_eq_true, decide_eq_true_eq] at h
    have h2 : c.toNat ≤ 57 := charLe_toNat h.2
    show c.toNat - 48 < 16
    omega
  split
  · rename_i h
    simp only [Bool.and_eq_true, decide_eq_true_eq] at h
    have h2 : c.toNat ≤ 102 := charLe_toNat h.2
    show c.toNat - 97 + 10 < 16
    omega
  split
  · rename_i h
    simp only [Bool.and_eq_true, decide_eq_true_eq] at h
    have h2 : c.toNat ≤ 70 := charLe_toNat h.2
    show c.toNat - 65 + 10 < 16
    omega
  · exact by norm_num

theorem hexDigitChar_hex : ∀ n, n < 16 → isHexDigitChar (hexDigitChar n) = true := by
  decide

theorem hexDigitVal_hexDigitChar : ∀ n, n < 16 → hexDigitVal (hexDigitChar n) = n := by
  decide

theorem hexDigitChar_ne_colon : ∀ n, n < 16 → hexDigitChar n ≠ ':' := by
  decide

theorem hexDigitChar_ne_dot : ∀ n, n < 16 → hexDigitChar n ≠ '.' := by
  decide

theorem hexDigitChar_not_space : ∀ n, n < 16 → isJsSpace (hexDigitChar n) = false := by
  decide

theorem decDigitChar_dec : ∀ n, n < 10 → isDecDigitChar (decDigitChar n) = true := by
  decide

theorem decDigitChar_ne_colon : ∀ n, n < 10 → decDigitChar n ≠ ':' := by
  decide

theorem decDigitChar_ne_dot : ∀ n, n < 10 → decDigitChar n ≠ '.' := by
  decide

theorem decDigitChar_not_space : ∀ n, n < 10 → isJsSpace (decDigitChar n) = false := by
  decide

theorem decDigitChar_val : ∀ n, n < 10 → (decDigitChar n).toNat - '0'.toNat = n := by
  decide

theorem parseHexNat_foldl (l : List Char) :
    ∀ A : Nat, l.foldl (fun acc c => 16 * acc + hexDigitVal c) A
      = A * 16 ^ l.length + parseHexNat l := by
  induction l with
  | nil => intro A; simp [parseHexNat]
  | cons c cs ih =>
    intro A
    show cs.foldl _ (16 * A + hexDigitVal c) = _
    rw [ih]
    have hc : parseHexNat (c :: cs)
        = (16 * 0 + hexDigitVal c) * 16 ^ cs.length + parseHexNat cs := by
      show cs.foldl _ (16 * 0 + hexDigitVal c) = _
      rw [ih]
    rw [hc]
    simp only [List.length_cons]
    ring

theorem parseHexNat_append (a b : List Char) :
    parseHexNat (a ++ b) = parseHexNat a * 16 ^ b.length + parseHexNat b := by
  show (a ++ b).foldl _ 0 = _
  rw [List.foldl_append]
  exact parseHexNat_foldl b _

theorem parseHexNat_lt (l : List Char) : parseHexNat l < 16 ^ l.length := by
  induction l using List.reverseRecOn with
  | nil => simp [parseHexNat]
  | append_singleton l c ih =>
    rw [parseHexNat_append]
    simp only [List.length_append, List.length_singleton]
    have hc : hexDigitVal c < 16 := hexDigitVal_lt c
    have : parseHexNat [c] < 16 := by
      simpa [parseHexNat] using hc
    calc parseHexNat l * 16 ^ 1 + parseHexNat [c]
        < (parseHexNat l + 1) * 16 := by ring_nf; omega
      _ ≤ 16 ^ l.length * 16 := by
          have := ih
          exact Nat.mul_le_mul_right 16 (by omega)
      _ = 16 ^ (l.length + 1) := by ring

/-- Parsing a fixed-width hex rendering recovers the value modulo the
width. -/
theorem parseHexNat_fixedHex (k n : Nat) : parseHexNat (fixedHex k n) = n % 16 ^ k := by
  induction k generalizing n with
  | zero => simp [fixedHex, parseHexNat, Nat.mod_one]
  | succ k ih =>
    show parseHexNat (fixedHex k (n / 16) ++ [hexDigitChar (n % 16)]) = n % 16 ^ (k + 1)
    rw [parseHexNat_append, ih]
    have hd : parseHexNat [hexDigitChar (n % 16)] = n % 16 := by
      have := hexDigitVal_hexDigitChar (n % 16) (Nat.mod_lt _ (by norm_num))
      simpa [parseHexNat]
    rw [hd]
    simp only [List.length_singleton, pow_one]
    have e1 : 16 ^ (k + 1) = 16 * 16 ^ k := by ring
    have e2 : 16 * (n / 16) + n % 16 = n := Nat.div_add_mod n 16
    have e3 : 16 * (n / 16) % (16 * 16 ^ k) = 16 * (n / 16 % 16 ^ k) :=
      Nat.mul_mod_mul_left 16 (n / 16) (16 ^ k)
    have e4 : n % 16 < 16 := Nat.mod_lt _ (by norm_num)
    have e5 : n / 16 % 16 ^ k < 16 ^ k := Nat.mod_lt _ (pow_pos (by norm_num) k)
    have e7 : (1 : Nat) ≤ 16 ^ k := Nat.one_le_pow k 16 (by norm_num)
    have e6 : n % (16 * 16 ^ k) = 16 * (n / 16 % 16 ^ k) + n % 16 := by
      conv_lhs => rw [← e2]
      rw [Nat.add_mod, e3,
        (Nat.mod_eq_of_lt (show n % 16 < 16 * 16 ^ k from by nlinarith)
          : n % 16 % (16 * 16 ^ k) = n % 16),
        Nat.mod_eq_of_lt (by nlinarith)]
    rw [e1, e6]
    ring

theorem fixedHex_length (k n : Nat) : (fixedHex k n).length = k := by
  induction k generalizing n with
  | zero => rfl
  | succ k ih => simp [fixedHex, ih]

theorem hexpow_mod_succ (n k : Nat) :
    n % 16 ^ (k + 1) = 16 * (n / 16 % 16 ^ k) + n % 16 := by
  have e2 : 16 * (n / 16) + n % 16 = n := Nat.div_add_mod n 16
  have e3 : 16 * (n / 16) % (16 * 16 ^ k) = 16 * (n / 16 % 16 ^ k) :=
    Nat.mul_mod_mul_left 16 (n / 16) (16 ^ k)
  have e4 : n % 16 < 16 := Nat.mod_lt _ (by norm_num)
  have e5 : n / 16 % 16 ^ k < 16 ^ k := Nat.mod_lt _ (pow_pos (by norm_num) k)
  have e7 : (1 : Nat) ≤ 16 ^ k := Nat.one_le_pow k 16 (by norm_num)
  have e1 : 16 ^ (k + 1) = 16 * 16 ^ k := by ring
  rw [e1]
  conv_lhs => rw [← e2]
  rw [Nat.add_mod, e3,
    (Nat.mod_eq_of_lt (show n % 16 < 16 * 16 ^ k from by nlinarith)
      : n % 16 % (16 * 16 ^ k) = n % 16),
    Nat.mod_eq_of_lt (by nlinarith)]

theorem fixedHex_zero (k : Nat) : fixedHex k 0 = List.replicate k '0' := by
  induction k with
  | zero => rfl
  | succ k ih =>
    show fixedHex k 0 ++ [hexDigitChar 0] = _
    rw [ih]
    have : hexDigitChar 0 = '0' := rfl
    rw [this, ← List.replicate_succ' k '0']

theorem fixedHex_append (a b n : Nat) :
    fixedHex (a + b) n = fixedHex a (n / 16 ^ b) ++ fixedHex b n := by
  induction b generalizing n with
  | zero => simp [fixedHex]
  | succ b ih =>
    show fixedHex (a + b) (n / 16) ++ [hexDigitChar (n % 16)] = _
    rw [ih]
    have : n / 16 / 16 ^ b = n / 16 ^ (b + 1) := by
      rw [Nat.div_div_eq_div_mul, ← pow_succ']
    rw [this]
    simp [fixedHex]

theorem fixedHex_mod (k n : Nat) : fixedHex k (n % 16 ^ k) = fixedHex k n := by
  induction k generalizing n with
  | zero => rfl
  | succ k ih =>
    have h := hexpow_mod_succ n k
    have e4 : n % 16 < 16 := Nat.mod_lt _ (by norm_num)
    have hdiv : n % 16 ^ (k + 1) / 16 = n / 16 % 16 ^ k := by omega
    have hmod : n % 16 ^ (k + 1) % 16 = n % 16 := by omega
    show fixedHex k (n % 16 ^ (k + 1) / 16) ++ [hexDigitChar (n % 16 ^ (k + 1) % 16)] = _
    rw [hdiv, hmod, ih]
    rfl

theorem mem_fixedHex_hex {c : Char} {k n : Nat} (h : c ∈ fixedHex k n) :
    isHexDigitChar c = true := by
  induction k generalizing n with
  | zero => simp [fixedHex] at h
  | succ k ih =>
    simp only [fixedHex, List.mem_append, List.mem_singleton] at h
    rcases h with h | h
    · exact ih h
    · subst h
      exact hexDigitChar_hex _ (Nat.mod_lt _ (by norm_num))

theorem hexChar_ne_colon {c : Char} (h : isHexDigitChar c = true) : c ≠ ':' := by
  intro he
  subst he
  exact absurd h (by decide)

theorem hexChar_ne_dot {c : Char} (h : isHexDigitChar c = true) : c ≠ '.' := by
  intro he
  subst he
  exact absurd h (by decide)

theorem hexChar_not_space {c : Char} (h : isHexDigitChar c = true) :
    isJsSpace c = false := by
  cases hc : isJsSpace c
  · rfl
  · exfalso
    have hd : c = ' ' ∨ c = '\t' ∨ c = '\n' ∨ c = '\r' ∨ c = '\x0b' ∨ c = '\x0c' ∨
        c = '\u00A0' := by
      simpa [isJsSpace, or_assoc] using hc
    rcases hd with h1 | h1 | h1 | h1 | h1 | h1 | h1 <;> subst h1 <;>
      exact absurd h (by decide)

theorem decChar_ne_colon {c : Char} (h : isDecDigitChar c = true) : c ≠ ':' := by
  intro he
  subst he
  exact absurd h (by decide)

theorem decChar_ne_dot {c : Char} (h : isDecDigitChar c = true) : c ≠ '.' := by
  intro he
  subst he
  exact absurd h (by decide)

theorem decChar_not_space {c : Char} (h : isDecDigitChar c = true) :
    isJsSpace c = false := by
  cases hc : isJsSpace c
  · rfl
  · exfalso
    have hd : c = ' ' ∨ c = '\t' ∨ c = '\n' ∨ c = '\r' ∨ c = '\x0b' ∨ c = '\x0c' ∨
        c = '\u00A0' := by
      simpa [isJsSpace, or_assoc] using hc
    rcases hd with h1 | h1 | h1 | h1 | h1 | h1 | h1 <;> subst h1 <;>
      exact absurd h (by decide)

theorem natToHexGo_zero (f : Nat) : natToHexGo f 0 = [] := by
  cases f <;> rfl

theorem natToHexGo_fixedHex :
    ∀ (k : Nat) (f n : Nat), n < 16 ^ k → n ≤ f →
      fixedHex k n = List.replicate (k - (natToHexGo f n).length) '0' ++ natToHexGo f n := by
  intro k
  induction k with
  | zero =>
    intro f n hn _
    interval_cases n
    simp [natToHexGo_zero, fixedHex]
  | succ k ih =>
    intro f n hn hf
    by_cases h0 : n = 0
    · subst h0
      rw [natToHexGo_zero, fixedHex_zero]
      simp
    · match f with
      | 0 => omega
      | f + 1 =>
        have hgo : natToHexGo (f + 1) n
            = natToHexGo f (n / 16) ++ [hexDigitChar (n % 16)] := by
          show (if n = 0 then _ else _) = _
          rw [if_neg h0]
        have hdivlt : n / 16 < 16 ^ k := by
          rw [Nat.div_lt_iff_lt_mul (by norm_num)]
          calc n < 16 ^ (k + 1) := hn
            _ = 16 ^ k * 16 := by ring
        have hdivle : n / 16 ≤ f := by
          have := Nat.div_lt_self (Nat.pos_of_ne_zero h0) (show 1 < 16 by norm_num)
          omega
        show fixedHex k (n / 16) ++ [hexDigitChar (n % 16)] = _
        rw [ih f (n / 16) hdivlt hdivle, hgo]
        simp only [List.length_append, List.length_singleton]
        have hlen : k + 1 - ((natToHexGo f (n / 16)).length + 1)
            = k - (natToHexGo f (n / 16)).length := by omega
        rw [hlen, List.append_assoc]

theorem padStart_natToHex {k n : Nat} (hn : n < 16 ^ k) (hk : 1 ≤ k) :
    padStart k '0' (natToHex n) = fixedHex k n := by
  by_cases h0 : n = 0
  · subst h0
    show List.replicate (k - 1) '0' ++ ['0'] = _
    rw [fixedHex_zero, ← List.replicate_succ' (k - 1) '0']
    congr 1
    omega
  · have : natToHex n = natToHexGo n n := by
      unfold natToHex
      rw [if_neg h0]
    unfold padStart
    rw [this, natToHexGo_fixedHex k n n hn (le_refl n)]

theorem natToHex_length_le {k n : Nat} (hn : n < 16 ^ k) (hk : 1 ≤ k) :
    (natToHex n).length ≤ k := by
  have h := padStart_natToHex hn hk
  have := fixedHex_length k n
  rw [← h] at this
  unfold padStart at this
  simp only [List.length_append, List.length_replicate] at this
  omega

theorem parseHexNat_replicate_zero (z : Nat) (l : List Char) :
    parseHexNat (List.replicate z '0' ++ l) = parseHexNat l := by
  induction z with
  | zero => rfl
  | succ z ih =>
    show parseHexNat ('0' :: (List.replicate z '0' ++ l)) = _
    show (List.replicate z '0' ++ l).foldl _ (16 * 0 + hexDigitVal '0') = _
    have : 16 * 0 + hexDigitVal '0' = 0 := by decide
    rw [this]
    exact ih

theorem parseHexNat_natToHex (n : Nat) : parseHexNat (natToHex n) = n := by
  by_cases h0 : n = 0
  · subst h0
    decide
  · have hk : n < 16 ^ n := Nat.lt_pow_self (by norm_num) n
    have h := padStart_natToHex hk (Nat.one_le_iff_ne_zero.mpr h0)
    unfold padStart at h
    have := parseHexNat_fixedHex n n
    rw [← h, parseHexNat_replicate_zero, Nat.mod_eq_of_lt hk] at this
    exact this

theorem mem_natToHexGo_hex {c : Char} :
    ∀ (f n : Nat), c ∈ natToHexGo f n → isHexDigitChar c = true := by
  intro f
  induction f with
  | zero => intro n h; simp [natToHexGo] at h
  | succ f ih =>
    intro n h
    by_cases h0 : n = 0
    · subst h0; rw [natToHexGo_zero] at h; simp at h
    · have : natToHexGo (f + 1) n = natToHexGo f (n / 16) ++ [hexDigitChar (n % 16)] := by
        show (if n = 0 then _ else _) = _
        rw [if_neg h0]
      rw [this] at h
      simp only [List.mem_append, List.mem_singleton] at h
      rcases h with h | h
      · exact ih _ h
      · subst h
        exact hexDigitChar_hex _ (Nat.mod_lt _ (by norm_num))

theorem mem_natToHex_hex {c : Char} {n : Nat} (h : c ∈ natToHex n) :
    isHexDigitChar c = true := by
  unfold natToHex at h
  split at h
  · simp at h
    subst h
    decide
  · exact mem_natToHexGo_hex _ _ h

theorem natToHex_ne_nil (n : Nat) : natToHex n ≠ [] := by
  unfold natToHex
  split
  · simp
  · rename_i h0
    match n, h0 with
    | n + 1, _ =>
      show (if n + 1 = 0 then _ else _) ≠ _
      simp

theorem parseDecNat_append_single (a : List Char) (c : Char) :
    parseDecNat (a ++ [c]) = 10 * parseDecNat a + (c.toNat - '0'.toNat) := by
  show (a ++ [c]).foldl _ 0 = _
  rw [List.foldl_append]
  rfl

theorem natToDecGo_zero (f : Nat) : natToDecGo f 0 = [] := by
  cases f <;> rfl

theorem parseDecNat_natToDecGo :
    ∀ (f n : Nat), n ≤ f → parseDecNat (natToDecGo f n) = n := by
  intro f
  induction f with
  | zero =>
    intro n h
    interval_cases n
    rfl
  | succ f ih =>
    intro n h
    by_cases h0 : n = 0
    · subst h0; rw [natToDecGo_zero]; rfl
    · have hgo : natToDecGo (f + 1) n = natToDecGo f (n / 10) ++ [decDigitChar (n % 10)] := by
        show (if n = 0 then _ else _) = _
        rw [if_neg h0]
      have hdivle : n / 10 ≤ f := by
        have := Nat.div_lt_self (Nat.pos_of_ne_zero h0) (show 1 < 10 by norm_num)
        omega
      rw [hgo, parseDecNat_append_single, ih _ hdivle,
        decDigitChar_val _ (Nat.mod_lt _ (by norm_num))]
      omega

theorem parseDecNat_natToDec (n : Nat) : parseDecNat (natToDec n) = n := by
  by_cases h0 : n = 0
  · subst h0; decide
  · unfold natToDec
    rw [if_neg h0]
    exact parseDecNat_natToDecGo n n (le_refl n)

theorem mem_natToDecGo_dec {c : Char} :
    ∀ (f n : Nat), c ∈ natToDecGo f n → isDecDigitChar c = true := by
  intro f
  induction f with
  | zero => intro n h; simp [natToDecGo] at h
  | succ f ih =>
    intro n h
    by_cases h0 : n = 0
    · subst h0; rw [natToDecGo_zero] at h; simp at h
    · have : natToDecGo (f + 1) n = natToDecGo f (n / 10) ++ [decDigitChar (n % 10)] := by
        show (if n = 0 then _ else _) = _
        rw [if_neg h0]
      rw [this] at h
      simp only [List.mem_append, List.mem_singleton] at h
      rcases h with h | h
      · exact ih _ h
      · subst h
        exact decDigitChar_dec _ (Nat.mod_lt _ (by norm_num))

theorem mem_natToDec_dec {c : Char} {n : Nat} (h : c ∈ natToDec n) :
    isDecDigitChar c = true := by
  unfold natToDec at h
  split at h
  · simp at h
    subst h
    decide
  · exact mem_natToDecGo_dec _ _ h

theorem natToDec_ne_nil (n : Nat) : natToDec n ≠ [] := by
  unfold natToDec
  split
  · simp
  · rename_i h0
    match n, h0 with
    | n + 1, _ =>
      show (if n + 1 = 0 then _ else _) ≠ _
      simp

/-! ## Join and pipeline string lemmas -/

theorem intercalate_nil (s : List Char) : List.intercalate s [] = [] := rfl

theorem intercalate_single (s : List Char) (a : List Char) : List.intercalate s [a] = a := by
  simp [List.intercalate]

theorem intercalate_cons₂ (s a : List Char) (b : List Char) (t : List (List Char)) :
    List.intercalate s (a :: b :: t) = a ++ s ++ List.intercalate s (b :: t) := by
  simp [List.intercalate, List.intersperse]

theorem intercalate_append_parts (s : List Char) (a : List Char) (as bs : List (List Char))
    (hb : bs ≠ []) :
    List.intercalate s ((a :: as) ++ bs)
      = List.intercalate s (a :: as) ++ s ++ List.intercalate s bs := by
  induction as generalizing a with
  | nil =>
    obtain ⟨b, bt, rfl⟩ : ∃ b bt, bs = b :: bt := by
      cases bs with
      | nil => exact absurd rfl hb
      | cons b bt => exact ⟨b, bt, rfl⟩
    rw [intercalate_single]
    exact intercalate_cons₂ s a b bt
  | cons a2 t2 ih =>
    rw [show ((a :: a2 :: t2) ++ bs) = a :: a2 :: (t2 ++ bs) from rfl, intercalate_cons₂,
      show a2 :: (t2 ++ bs) = (a2 :: t2) ++ bs from rfl, ih a2, intercalate_cons₂]
    simp [List.append_assoc]

theorem dropWhile_no_sat {p : Char → Bool} {l : List Char} (h : ∀ c ∈ l, p c = false) :
    l.dropWhile p = l := by
  cases l with
  | nil => rfl
  | cons c cs =>
    rw [List.dropWhile_cons, h c (List.mem_cons_self c cs)]
    simp

theorem strip_of_no_space {l : List Char} (h : ∀ c ∈ l, isJsSpace c = false) :
    stripFirstSpaceRun l = l := by
  induction l with
  | nil => rfl
  | cons c cs ih =>
    show (if isJsSpace c then _ else _) = _
    rw [h c (List.mem_cons_self c cs), if_neg (by simp)]
    exact congrArg (c :: ·) (ih (fun d hd => h d (List.mem_cons_of_mem c hd)))

theorem dropWhile_ws_append {w s : List Char} (hw : ∀ c ∈ w, isJsSpace c = true)
    (hs : ∀ c ∈ s, isJsSpace c = false) :
    List.dropWhile isJsSpace (w ++ s) = s := by
  induction w with
  | nil => exact dropWhile_no_sat hs
  | cons d w' ih =>
    show List.dropWhile _ (d :: (w' ++ s)) = s
    rw [List.dropWhile_cons, hw d (List.mem_cons_self d w')]
    simpa using ih (fun e he => hw e (List.mem_cons_of_mem d he))

theorem strip_ws_append {w s : List Char} (hw : ∀ c ∈ w, isJsSpace c = true)
    (hs : ∀ c ∈ s, isJsSpace c = false) :
    stripFirstSpaceRun (w ++ s) = s := by
  cases w with
  | nil => exact strip_of_no_space hs
  | cons c w' =>
    show (if isJsSpace c then _ else _) = _
    rw [hw c (List.mem_cons_self c w'), if_pos rfl]
    exact dropWhile_ws_append (fun e he => hw e (List.mem_cons_of_mem c he)) hs

theorem strip_append_ws {s w : List Char} (hs : ∀ c ∈ s, isJsSpace c = false)
    (hw : ∀ c ∈ w, isJsSpace c = true) :
    stripFirstSpaceRun (s ++ w) = s := by
  induction s with
  | nil =>
    have := @strip_ws_append w [] hw (by intro c hc; cases hc)
    simpa using this
  | cons c cs ih =>
    show (if isJsSpace c then _ else _) = _
    rw [hs c (List.mem_cons_self c cs), if_neg (by simp)]
    exact congrArg (c :: ·) (ih (fun d hd => hs d (List.mem_cons_of_mem c hd)))

theorem lastIndexOf_of_not_mem {c : Char} {l : List Char} (h : c ∉ l) :
    lastIndexOf c l = -1 := by
  induction l with
  | nil => rfl
  | cons a as ih =>
    have hne : a ≠ c := fun he => h (by simp [he])
    have hr : lastIndexOf c as = -1 := ih (fun hm => h (List.mem_cons_of_mem a hm))
    show (if 0 ≤ lastIndexOf c as then _ else if a = c then _ else _) = _
    rw [hr, if_neg (by norm_num), if_neg hne]

theorem lastIndexOf_nonneg_of_mem {c : Char} {l : List Char} (h : c ∈ l) :
    0 ≤ lastIndexOf c l := by
  induction l with
  | nil => simp at h
  | cons a as ih =>
    show 0 ≤ (if 0 ≤ lastIndexOf c as then lastIndexOf c as + 1
      else if a = c then 0 else -1)
    by_cases hm : c ∈ as
    · have := ih hm
      rw [if_pos this]
      omega
    · have ha : a = c := by
        rcases List.mem_cons.mp h with h1 | h1
        · exact h1.symm
        · exact absurd h1 hm
      by_cases h0 : 0 ≤ lastIndexOf c as
      · rw [if_pos h0]; omega
      · rw [if_neg h0, if_pos ha]

theorem lastIndexOf_tail_pos {c : Char} {a : Char} {as : List Char} (h : c ∈ as) :
    0 < lastIndexOf c (a :: as) := by
  have := lastIndexOf_nonneg_of_mem h
  show 0 < (if 0 ≤ lastIndexOf c as then lastIndexOf c as + 1
    else if a = c then 0 else -1)
  rw [if_pos this]
  omega

theorem jsIndexOf_nonneg_of_mem {c : Char} {l : List Char} (h : c ∈ l) :
    0 ≤ jsIndexOf c l := by
  induction l with
  | nil => simp at h
  | cons a as ih =>
    show 0 ≤ (if a = c then 0 else if 0 ≤ jsIndexOf c as then jsIndexOf c as + 1 else -1)
    by_cases ha : a = c
    · rw [if_pos ha]
    · have hm : c ∈ as := by
        rcases List.mem_cons.mp h with h1 | h1
        · exact absurd h1.symm ha
        · exact h1
      have := ih hm
      rw [if_neg ha, if_pos this]
      omega

/-! Scanning lemmas for `countColonColon` and `replaceColonColon`. -/

theorem countCC_cons_cons (a b : Char) (rest : List Char) :
    countColonColon (a :: b :: rest)
      = if a = ':' ∧ b = ':' then countColonColon rest + 1
        else countColonColon (b :: rest) := by
  rfl

theorem replaceCC_cons_cons (repl : List Char) (a b : Char) (rest : List Char) :
    replaceColonColon repl (a :: b :: rest)
      = if a = ':' ∧ b = ':' then repl ++ replaceColonColon repl rest
        else a :: replaceColonColon repl (b :: rest) := by
  rfl

theorem countCC_skip {p : List Char} (hp : ':' ∉ p) (l : List Char) :
    countColonColon (p ++ l) = countColonColon l := by
  induction p with
  | nil => rfl
  | cons c p' ih =>
    have hc : c ≠ ':' := fun he => hp (by simp [he])
    have hp' : ':' ∉ p' := fun hm => hp (List.mem_cons_of_mem c hm)
    show countColonColon (c :: (p' ++ l)) = _
    match hpl : p' ++ l with
    | [] =>
      obtain ⟨h1, h2⟩ := List.append_eq_nil.mp hpl
      subst h2
      rfl
    | d :: t =>
      rw [countCC_cons_cons, if_neg (by tauto), ← hpl, ih hp']

theorem countCC_colon_cons {l : List Char} (h : l.head? ≠ some ':') :
    countColonColon (':' :: l) = countColonColon l := by
  match l with
  | [] => rfl
  | d :: t =>
    have hd : d ≠ ':' := by simpa using h
    rw [countCC_cons_cons, if_neg (by tauto)]

theorem countCC_colon_colon (l : List Char) :
    countColonColon (':' :: ':' :: l) = countColonColon l + 1 := by
  rw [countCC_cons_cons, if_pos ⟨rfl, rfl⟩]

theorem replaceCC_skip (repl : List Char) {p : List Char} (hp : ':' ∉ p) (l : List Char) :
    replaceColonColon repl (p ++ l) = p ++ replaceColonColon repl l := by
  induction p with
  | nil => rfl
  | cons c p' ih =>
    have hc : c ≠ ':' := fun he => hp (by simp [he])
    have hp' : ':' ∉ p' := fun hm => hp (List.mem_cons_of_mem c hm)
    show replaceColonColon repl (c :: (p' ++ l)) = _
    match hpl : p' ++ l with
    | [] =>
      obtain ⟨h1, h2⟩ := List.append_eq_nil.mp hpl
      subst h1 h2
      rfl
    | d :: t =>
      rw [replaceCC_cons_cons, if_neg (by tauto), ← hpl, ih hp', List.cons_append]

theorem replaceCC_colon_cons (repl : List Char) {l : List Char} (h : l.head? ≠ some ':') :
    replaceColonColon repl (':' :: l) = ':' :: replaceColonColon repl l := by
  match l with
  | [] => rfl
  | d :: t =>
    have hd : d ≠ ':' := by simpa using h
    rw [replaceCC_cons_cons, if_neg (by tauto)]

theorem replaceCC_colon_colon (repl : List Char) (l : List Char) :
    replaceColonColon repl (':' :: ':' :: l) = repl ++ replaceColonColon repl l := by
  rw [replaceCC_cons_cons, if_pos ⟨rfl, rfl⟩]

/-! Facts about colon-joins of non-empty, colon-free parts. -/

theorem goodParts_cons {p : List Char} {ps : List (List Char)} (h : GoodParts (p :: ps)) :
    (p ≠ [] ∧ ':' ∉ p) ∧ GoodParts ps :=
  ⟨h p (List.mem_cons_self p ps), fun q hq => h q (List.mem_cons_of_mem p hq)⟩

theorem join_ne_nil {ps : List (List Char)} (h : GoodParts ps) (hne : ps ≠ []) :
    List.intercalate [':'] ps ≠ [] := by
  match ps with
  | [] => exact absurd rfl hne
  | [p] =>
    rw [intercalate_single]
    exact (goodParts_cons h).1.1
  | p :: q :: t =>
    rw [intercalate_cons₂]
    have := (goodParts_cons h).1.1
    intro he
    rcases List.append_eq_nil.mp (List.append_eq_nil.mp he).1 with ⟨h1, _⟩
    exact this h1

theorem join_head? {ps : List (List Char)} (h : GoodParts ps) (hne : ps ≠ []) :
    ∃ p0, ps.head? = some p0 ∧ (List.intercalate [':'] ps).head? = p0.head? := by
  match ps with
  | [] => exact absurd rfl hne
  | [p] =>
    rw [intercalate_single]
    exact ⟨p, rfl, rfl⟩
  | p :: q :: t =>
    refine ⟨p, rfl, ?_⟩
    rw [intercalate_cons₂]
    have hp := (goodParts_cons h).1.1
    rw [List.append_assoc, List.head?_append]
    cases hp2 : p.head? with
    | none => exact absurd (List.head?_eq_none_iff.mp hp2) hp
    | some c => rfl

theorem join_getLast? {ps : List (List Char)} (h : GoodParts ps) (hne : ps ≠ []) :
    ∃ pl, ps.getLast? = some pl ∧ (List.intercalate [':'] ps).getLast? = pl.getLast? := by
  match ps with
  | [] => exact absurd rfl hne
  | [p] =>
    rw [intercalate_single]
    exact ⟨p, rfl, rfl⟩
  | p :: q :: t =>
    obtain ⟨pl, h1, h2⟩ := join_getLast? (goodParts_cons h).2 (by simp)
    refine ⟨pl, ?_, ?_⟩
    · rw [List.getLast?_cons_cons]
      exact h1
    · rw [intercalate_cons₂, List.append_assoc,
        List.getLast?_append_of_ne_nil _ (by simp),
        List.getLast?_append_of_ne_nil _ (join_ne_nil (goodParts_cons h).2 (by simp)), h2]

theorem join_head_ne_colon {ps : List (List Char)} (h : GoodParts ps) (hne : ps ≠ []) :
    (List.intercalate [':'] ps).head? ≠ some ':' := by
  obtain ⟨p0, h1, h2⟩ := join_head? h hne
  rw [h2]
  intro he
  have hp0 : p0 ∈ ps := List.mem_of_mem_head? (by rw [h1]; rfl)
  exact (h p0 hp0).2 (List.mem_of_mem_head? (by rw [he]; rfl))

theorem join_getLast_ne_colon {ps : List (List Char)} (h : GoodParts ps) (hne : ps ≠ []) :
    (List.intercalate [':'] ps).getLast? ≠ some ':' := by
  obtain ⟨pl, h1, h2⟩ := join_getLast? h hne
  rw [h2]
  intro he
  have hpl : pl ∈ ps := List.mem_of_mem_getLast? h1
  exact (h pl hpl).2 (List.mem_of_mem_getLast? (by rw [he]; rfl))

theorem countCC_join {ps : List (List Char)} (h : GoodParts ps) :
    countColonColon (List.intercalate [':'] ps) = 0 := by
  match ps with
  | [] => rfl
  | [p] =>
    rw [intercalate_single]
    have := (goodParts_cons h).1.2
    have : countColonColon (p ++ []) = countColonColon [] := countCC_skip this []
    simpa using this
  | p :: q :: t =>
    rw [intercalate_cons₂, List.append_assoc, countCC_skip (goodParts_cons h).1.2,
      List.singleton_append, countCC_colon_cons]
    · exact countCC_join (goodParts_cons h).2
    · obtain ⟨p0, h1, h2⟩ := join_head? (goodParts_cons h).2 (by simp)
      rw [h2]
      intro he
      have hp0 : p0 ∈ q :: t := List.mem_of_mem_head? (by rw [h1]; rfl)
      exact ((goodParts_cons h).2 p0 hp0).2 (List.mem_of_mem_head? (by rw [he]; rfl))

theorem mem_join {c : Char} {s : List Char} {ps : List (List Char)}
    (h : c ∈ List.intercalate s ps) : c ∈ s ∨ ∃ p ∈ ps, c ∈ p := by
  match ps with
  | [] => simp [List.intercalate] at h
  | [p] =>
    rw [intercalate_single] at h
    exact Or.inr ⟨p, by simp, h⟩
  | p :: q :: t =>
    rw [intercalate_cons₂] at h
    simp only [List.append_assoc, List.mem_append] at h
    rcases h with h | h | h
    · exact Or.inr ⟨p, by simp, h⟩
    · exact Or.inl h
    · rcases mem_join h with h2 | ⟨r, hr, hcr⟩
      · exact Or.inl h2
      · exact Or.inr ⟨r, List.mem_cons_of_mem p hr, hcr⟩

theorem count_colon_join {ps : List (List Char)} (h : GoodParts ps) :
    (List.intercalate [':'] ps).count ':' = ps.length - 1 := by
  match ps with
  | [] => rfl
  | [p] =>
    rw [intercalate_single]
    have hp := (goodParts_cons h).1.2
    simp [List.count_eq_zero.mpr hp]
  | p :: q :: t =>
    rw [intercalate_cons₂, List.count_append, List.count_append,
      count_colon_join (goodParts_cons h).2]
    have hp := (goodParts_cons h).1.2
    rw [List.count_eq_zero.mpr hp]
    have : ([':'] : List Char).count ':' = 1 := by decide
    rw [this]
    simp only [List.length_cons]
    omega

theorem join_append_head_ne_colon {ps : List (List Char)} (h : GoodParts ps)
    (hne : ps ≠ []) (l : List Char) :
    (List.intercalate [':'] ps ++ l).head? ≠ some ':' := by
  have hJ := join_ne_nil h hne
  have hh := join_head_ne_colon h hne
  rw [List.head?_append]
  cases hJ2 : (List.intercalate [':'] ps).head? with
  | none => exact absurd (List.head?_eq_none_iff.mp hJ2) hJ
  | some c =>
    rw [hJ2] at hh
    intro hcon
    apply hh
    rw [← hcon]
    rfl

theorem countCC_scan_join {ps : List (List Char)} (h : GoodParts ps) (hne : ps ≠ [])
    (l : List Char) :
    countColonColon (List.intercalate [':'] ps ++ ':' :: ':' :: l)
      = countColonColon l + 1 := by
  match ps with
  | [p] =>
    rw [intercalate_single, countCC_skip (goodParts_cons h).1.2, countCC_colon_colon]
  | p :: q :: t =>
    have hh := join_append_head_ne_colon (goodParts_cons h).2 (by simp) (':' :: ':' :: l)
    rw [intercalate_cons₂, List.append_assoc, List.append_assoc,
      countCC_skip (goodParts_cons h).1.2, List.singleton_append, countCC_colon_cons hh]
    exact countCC_scan_join (goodParts_cons h).2 (by simp) l

theorem replaceCC_join_id (repl : List Char) {ps : List (List Char)} (h : GoodParts ps) :
    replaceColonColon repl (List.intercalate [':'] ps) = List.intercalate [':'] ps := by
  match ps with
  | [] => rfl
  | [p] =>
    rw [intercalate_single]
    have h1 := replaceCC_skip repl (goodParts_cons h).1.2 []
    have h2 : replaceColonColon repl ([] : List Char) = [] := rfl
    rw [h2, List.append_nil] at h1
    exact h1
  | p :: q :: t =>
    have hh := join_head_ne_colon (goodParts_cons h).2 (by simp)
    rw [intercalate_cons₂, List.append_assoc, replaceCC_skip repl (goodParts_cons h).1.2,
      List.singleton_append, replaceCC_colon_cons repl hh,
      replaceCC_join_id repl (goodParts_cons h).2]

theorem replaceCC_scan_join (repl : List Char) {ps : List (List Char)} (h : GoodParts ps)
    (hne : ps ≠ []) (l : List Char) :
    replaceColonColon repl (List.intercalate [':'] ps ++ ':' :: ':' :: l)
      = List.intercalate [':'] ps ++ repl ++ replaceColonColon repl l := by
  match ps with
  | [p] =>
    rw [intercalate_single, replaceCC_skip repl (goodParts_cons h).1.2,
      replaceCC_colon_colon]
    simp [List.append_assoc]
  | p :: q :: t =>
    have hh : ((List.intercalate [':'] (q :: t)) ++ ':' :: ':' :: l).head? ≠ some ':' :=
      join_append_head_ne_colon (goodParts_cons h).2 (by simp) _
    rw [intercalate_cons₂, List.append_assoc, List.append_assoc,
      replaceCC_skip repl (goodParts_cons h).1.2, List.singleton_append,
      replaceCC_colon_cons repl hh,
      replaceCC_scan_join repl (goodParts_cons h).2 (by simp) l]
    simp [List.append_assoc]

theorem zeroColonRep_succ (m : Nat) :
    zeroColonRep (m + 1) = '0' :: ':' :: zeroColonRep m := by
  simp [zeroColonRep, List.replicate_succ]

theorem zeroColonRep_append_join (m : Nat) {ss : List (List Char)} (hne : ss ≠ []) :
    zeroColonRep m ++ List.intercalate [':'] ss
      = List.intercalate [':'] (List.replicate m ['0'] ++ ss) := by
  obtain ⟨q, t, rfl⟩ : ∃ q t, ss = q :: t := by
    cases ss with
    | nil => exact absurd rfl hne
    | cons q t => exact ⟨q, t, rfl⟩
  induction m with
  | zero => simp [zeroColonRep]
  | succ m ih =>
    obtain ⟨r, rt, hr⟩ : ∃ r rt, List.replicate m (['0'] : List Char) ++ q :: t = r :: rt := by
      cases m with
      | zero => exact ⟨q, t, rfl⟩
      | succ m => exact ⟨['0'], _, by rw [List.replicate_succ, List.cons_append]⟩
    rw [zeroColonRep_succ, List.replicate_succ,
      show ((['0'] :: List.replicate m ['0']) ++ (q :: t) : List (List Char))
        = ['0'] :: (List.replicate m ['0'] ++ (q :: t)) from by rw [List.cons_append],
      hr, intercalate_cons₂, ← hr, ← ih]
    simp [List.append_assoc]

theorem zeroColonRep_concat_zero (m : Nat) :
    zeroColonRep m ++ ['0'] = List.intercalate [':'] (List.replicate (m + 1) ['0']) := by
  induction m with
  | zero => simp [zeroColonRep, intercalate_single]
  | succ m ih =>
    rw [zeroColonRep_succ, List.replicate_succ (['0'] : List Char) (m + 1)]
    have hcons : ∃ r rt, List.replicate (m + 1) (['0'] : List Char) = r :: rt :=
      ⟨['0'], _, by rw [List.replicate_succ]⟩
    obtain ⟨r, rt, hr⟩ := hcons
    rw [hr, intercalate_cons₂, ← hr, ← ih]
    simp [List.append_assoc]

theorem colon_zeroColonRep_getLast (m : Nat) :
    ∀ l : List Char, (l ++ ':' :: zeroColonRep m).getLast? = some ':' := by
  induction m with
  | zero =>
    intro l
    show (l ++ [':']).getLast? = some ':'
    rw [List.getLast?_append_of_ne_nil _ (by simp)]
    rfl
  | succ m ih =>
    intro l
    rw [zeroColonRep_succ,
      show l ++ ':' :: '0' :: ':' :: zeroColonRep m
        = (l ++ [':', '0']) ++ ':' :: zeroColonRep m by simp,
      ih]

theorem ite_int_toNat (v4 : Bool) (c : Nat) (hc : c ≤ if v4 then 7 else 8) :
    ((if v4 then (7 : Int) else 8) - (c : Int)).toNat = (if v4 then 7 else 8) - c := by
  cases v4 <;> simp at hc ⊢ <;> omega

/-- The elision expansion on a string of shape `P::S`, where `P` and `S` are
colon-joins of non-empty colon-free groups: the number of colon characters
is counted, `(7 or 8) - colons` zero groups are substituted for the `::`
(one of them coming from the leading/trailing patch when `P` or `S` is
empty), and the result is the colon-join of exactly `7 or 8` group tokens. -/
theorem expandStep_join (v4 : Bool) (ps ss : List (List Char))
    (hps : GoodParts ps) (hss : GoodParts ss)
    (hT : ps.length + ss.length ≤ if v4 then 7 else 8)
    (hps0 : ps = [] → ss ≠ [] → ps.length + ss.length + 1 ≤ if v4 then 7 else 8)
    (hss0 : ss = [] → ps ≠ [] → ps.length + ss.length + 1 ≤ if v4 then 7 else 8) :
    IPv6.expandStep v4 (List.intercalate [':'] ps ++ ':' :: ':' :: List.intercalate [':'] ss)
      = .ok (List.intercalate [':']
          (ps ++ List.replicate ((if v4 then 7 else 8) - (ps.length + ss.length)) ['0'] ++ ss)) := by
  match ps, ss with
  | [], [] =>
    cases v4 <;> decide
  | [], q :: st =>
    have hBne : List.intercalate [':'] (q :: st) ≠ [] := join_ne_nil hss (by simp)
    have hval : List.intercalate [':'] ([] : List (List Char))
        ++ ':' :: ':' :: List.intercalate [':'] (q :: st)
        = ':' :: ':' :: List.intercalate [':'] (q :: st) := rfl
    rw [hval]
    have hcc : countColonColon (':' :: ':' :: List.intercalate [':'] (q :: st)) = 1 := by
      rw [countCC_colon_colon, countCC_join hss]
    have hcount : List.count ':' (':' :: ':' :: List.intercalate [':'] (q :: st))
        = st.length + 2 := by
      rw [List.count_cons_self, List.count_cons_self, count_colon_join hss]
      simp
    have hle : st.length + 2 ≤ if v4 then 7 else 8 := by
      have := hps0 rfl (by simp)
      simpa using this
    have hm := ite_int_toNat v4 (st.length + 2) hle
    have hrepl : replaceColonColon (':' :: zeroColonRep ((if v4 then 7 else 8) - (st.length + 2)))
        (':' :: ':' :: List.intercalate [':'] (q :: st))
        = (':' :: zeroColonRep ((if v4 then 7 else 8) - (st.length + 2)))
            ++ List.intercalate [':'] (q :: st) := by
      rw [replaceCC_colon_colon, replaceCC_join_id _ hss]
    simp only [IPv6.expandStep]
    rw [hcc, if_neg (by norm_num : ¬ (1 : Nat) < 1), if_pos rfl, hcount, hm, hrepl]
    have hhead : ((':' :: zeroColonRep ((if v4 then 7 else 8) - (st.length + 2)))
        ++ List.intercalate [':'] (q :: st)).head? = some ':' := rfl
    rw [if_pos hhead]
    have hlast : ('0' :: ((':' :: zeroColonRep ((if v4 then 7 else 8) - (st.length + 2)))
        ++ List.intercalate [':'] (q :: st))).getLast?
        = (List.intercalate [':'] (q :: st)).getLast? := by
      rw [show ('0' :: ((':' :: zeroColonRep ((if v4 then 7 else 8) - (st.length + 2)))
          ++ List.intercalate [':'] (q :: st)))
        = ('0' :: ':' :: zeroColonRep ((if v4 then 7 else 8) - (st.length + 2)))
          ++ List.intercalate [':'] (q :: st) from by simp,
        List.getLast?_append_of_ne_nil _ hBne]
    rw [if_neg (by rw [hlast]; exact join_getLast_ne_colon hss (by simp))]
    congr 1
    have hzj := @zeroColonRep_append_join ((if v4 then 7 else 8) - (st.length + 2))
      (q :: st) (by simp)
    have step1 : ('0' :: ((':' :: zeroColonRep ((if v4 then 7 else 8) - (st.length + 2)))
        ++ List.intercalate [':'] (q :: st)))
        = '0' :: ':' :: (zeroColonRep ((if v4 then 7 else 8) - (st.length + 2))
            ++ List.intercalate [':'] (q :: st)) := by
      simp
    rw [step1, hzj]
    obtain ⟨r, rt, hr⟩ : ∃ r rt,
        List.replicate ((if v4 then 7 else 8) - (st.length + 2)) (['0'] : List Char)
          ++ q :: st = r :: rt := by
      cases hz : (if v4 then 7 else 8) - (st.length + 2) with
      | zero => exact ⟨q, st, by simp⟩
      | succ z => exact ⟨['0'], _, by rw [List.replicate_succ, List.cons_append]⟩
    rw [hr, show ('0' :: ':' :: List.intercalate [':'] (r :: rt))
      = List.intercalate [':'] (['0'] :: r :: rt) from by rw [intercalate_cons₂]; rfl, ← hr]
    have hrepc : (['0'] : List Char) :: (List.replicate ((if v4 then 7 else 8) - (st.length + 2)) ['0']
        ++ q :: st)
        = List.replicate ((if v4 then 7 else 8) - (st.length + 2) + 1) ['0'] ++ q :: st := by
      rw [List.replicate_succ, List.cons_append]
    rw [hrepc]
    have hcnt : (if v4 then 7 else 8) - (st.length + 2) + 1
        = (if v4 then 7 else 8) - (List.length ([] : List (List Char)) + (q :: st).length) := by
      simp only [List.length_nil, List.length_cons]
      omega
    rw [hcnt]
    rfl
  | p :: pt, [] =>
    have hval : List.intercalate [':'] (p :: pt)
        ++ ':' :: ':' :: List.intercalate [':'] ([] : List (List Char))
        = List.intercalate [':'] (p :: pt) ++ ':' :: ':' :: [] := rfl
    rw [hval]
    have hcc : countColonColon (List.intercalate [':'] (p :: pt) ++ ':' :: ':' :: []) = 1 := by
      rw [countCC_scan_join hps (by simp)]
      rfl
    have hcount : List.count ':' (List.intercalate [':'] (p :: pt) ++ ':' :: ':' :: [])
        = pt.length + 2 := by
      rw [List.count_append, count_colon_join hps]
      simp
    have hle : pt.length + 2 ≤ if v4 then 7 else 8 := by
      have := hss0 rfl (by simp)
      simpa using this
    have hm := ite_int_toNat v4 (pt.length + 2) hle
    have hrepl : replaceColonColon (':' :: zeroColonRep ((if v4 then 7 else 8) - (pt.length + 2)))
        (List.intercalate [':'] (p :: pt) ++ ':' :: ':' :: [])
        = List.intercalate [':'] (p :: pt)
            ++ (':' :: zeroColonRep ((if v4 then 7 else 8) - (pt.length + 2))) := by
      rw [replaceCC_scan_join _ hps (by simp),
        show replaceColonColon
          (':' :: zeroColonRep ((if v4 then 7 else 8) - (pt.length + 2))) ([] : List Char)
          = [] from rfl, List.append_nil]
    simp only [IPv6.expandStep]
    rw [hcc, if_neg (by norm_num : ¬ (1 : Nat) < 1), if_pos rfl, hcount, hm, hrepl]
    rw [if_neg (join_append_head_ne_colon hps (by simp) _)]
    rw [if_pos (colon_zeroColonRep_getLast _ _)]
    congr 1
    have hcnt : (if v4 then 7 else 8) - (pt.length + 2) + 1
        = (if v4 then 7 else 8) - ((p :: pt).length + ([] : List (List Char)).length) := by
      simp only [List.length_cons, List.length_nil]
      omega
    rw [List.append_assoc,
      show (':' :: zeroColonRep ((if v4 then 7 else 8) - (pt.length + 2))) ++ ['0']
        = [':'] ++ (zeroColonRep ((if v4 then 7 else 8) - (pt.length + 2)) ++ ['0']) by simp,
      zeroColonRep_concat_zero, ← List.append_assoc,
      ← intercalate_append_parts [':'] p pt _ (by simp), hcnt, List.append_nil]
  | p :: pt, q :: st =>
    have hBne : List.intercalate [':'] (q :: st) ≠ [] := join_ne_nil hss (by simp)
    have hcc : countColonColon (List.intercalate [':'] (p :: pt)
        ++ ':' :: ':' :: List.intercalate [':'] (q :: st)) = 1 := by
      rw [countCC_scan_join hps (by simp), countCC_join hss]
    have hcount : List.count ':' (List.intercalate [':'] (p :: pt)
        ++ ':' :: ':' :: List.intercalate [':'] (q :: st))
        = pt.length + st.length + 2 := by
      rw [List.count_append, count_colon_join hps, List.count_cons_self,
        List.count_cons_self, count_colon_join hss]
      simp only [List.length_cons]
      omega
    have hle : pt.length + st.length + 2 ≤ if v4 then 7 else 8 := by
      simp only [List.length_cons] at hT
      omega
    have hm := ite_int_toNat v4 (pt.length + st.length + 2) hle
    have hrepl : replaceColonColon
        (':' :: zeroColonRep ((if v4 then 7 else 8) - (pt.length + st.length + 2)))
        (List.intercalate [':'] (p :: pt) ++ ':' :: ':' :: List.intercalate [':'] (q :: st))
        = List.intercalate [':'] (p :: pt)
            ++ (':' :: zeroColonRep ((if v4 then 7 else 8) - (pt.length + st.length + 2)))
            ++ List.intercalate [':'] (q :: st) := by
      rw [replaceCC_scan_join _ hps (by simp), replaceCC_join_id _ hss]
    have hhead4 : (List.intercalate [':'] (p :: pt)
        ++ (':' :: zeroColonRep ((if v4 then 7 else 8) - (pt.length + st.length + 2)))
        ++ List.intercalate [':'] (q :: st)).head? ≠ some ':' := by
      rw [List.append_assoc]
      exact join_append_head_ne_colon hps (by simp) _
    have hlast4 : (List.intercalate [':'] (p :: pt)
        ++ (':' :: zeroColonRep ((if v4 then 7 else 8) - (pt.length + st.length + 2)))
        ++ List.intercalate [':'] (q :: st)).getLast? ≠ some ':' := by
      rw [List.getLast?_append_of_ne_nil _ hBne]
      exact join_getLast_ne_colon hss (by simp)
    simp only [IPv6.expandStep]
    rw [hcc, if_neg (by norm_num : ¬ (1 : Nat) < 1), if_pos rfl, hcount, hm, hrepl]
    rw [if_neg hhead4, if_neg hlast4]
    congr 1
    have hzj := @zeroColonRep_append_join ((if v4 then 7 else 8) - (pt.length + st.length + 2))
      (q :: st) (by simp)
    rw [List.append_assoc,
      show (':' :: zeroColonRep ((if v4 then 7 else 8) - (pt.length + st.length + 2)))
          ++ List.intercalate [':'] (q :: st)
        = [':'] ++ (zeroColonRep ((if v4 then 7 else 8) - (pt.length + st.length + 2))
            ++ List.intercalate [':'] (q :: st)) by simp,
      hzj, ← List.append_assoc,
      ← intercalate_append_parts [':'] p pt _ (by
        intro he
        have h2 := congrArg List.length he
        simp at h2)]
    have hcnt : (if v4 then 7 else 8) - (pt.length + st.length + 2)
        = (if v4 then 7 else 8) - ((p :: pt).length + (q :: st).length) := by
      simp only [List.length_cons]
      congr 1
      omega
    rw [hcnt, ← List.append_assoc]

/-! ## Parsing a join of eight groups -/

theorem chunksOf4_block {a : List Char} (h : a.length = 4) (rest : List Char) :
    IPv6.chunksOf4 (a ++ rest) = a :: IPv6.chunksOf4 rest := by
  obtain ⟨c1, t, rfl⟩ : ∃ x t, a = x :: t := by
    cases a with
    | nil => simp at h
    | cons x t => exact ⟨x, t, rfl⟩
  obtain ⟨c2, t2, rfl⟩ : ∃ x t2, t = x :: t2 := by
    cases t with
    | nil => simp at h
    | cons x t2 => exact ⟨x, t2, rfl⟩
  obtain ⟨c3, t3, rfl⟩ : ∃ x t3, t2 = x :: t3 := by
    cases t2 with
    | nil => simp at h
    | cons x t3 => exact ⟨x, t3, rfl⟩
  obtain ⟨c4, t4, rfl⟩ : ∃ x t4, t3 = x :: t4 := by
    cases t3 with
    | nil => simp at h
    | cons x t4 => exact ⟨x, t4, rfl⟩
  obtain rfl : t4 = [] := by
    cases t4 with
    | nil => rfl
    | cons x t5 => simp at h
  rfl

theorem chunksOf2_block {a : List Char} (h : a.length = 2) (rest : List Char) :
    IPv6.chunksOf2 (a ++ rest) = a :: IPv6.chunksOf2 rest := by
  obtain ⟨c1, c2, rfl⟩ := List.length_eq_two.mp h
  rfl

/-- Shape hypothesis on the group tokens handed to the accumulation loop:
non-empty, all-hex, value at most `0xFFFF`. -/
def HexGroups (parts : List (List Char)) : Prop :=
  ∀ p ∈ parts, p ≠ [] ∧ p.all isHexDigitChar = true ∧ parseHexNat p ≤ 0xFFFF

theorem hexGroups_goodParts {parts : List (List Char)} (h : HexGroups parts) :
    GoodParts parts := by
  intro p hp
  refine ⟨(h p hp).1, fun hc => ?_⟩
  have := List.all_eq_true.mp (h p hp).2.1 ':' hc
  exact absurd this (by decide)

theorem groupLoop_ok {rparts : List (List Char)} (h : HexGroups rparts) :
    ∀ hex0 : List Char, IPv6.groupLoop hex0 rparts
      = .ok (rparts.foldl (fun acc p => padStart 4 '0' (natToHex (parseHexNat p)) ++ acc) hex0) := by
  induction rparts with
  | nil => intro hex0; rfl
  | cons p rest ih =>
    intro hex0
    obtain ⟨hne, hhex, hle⟩ := h p (List.mem_cons_self p rest)
    show (if p = [] then _ else _) = _
    rw [if_neg hne]
    have hpg : IPv6.parseGroup p = .ok (parseHexNat p) := by
      unfold IPv6.parseGroup IPv6.parseHex
      rw [if_pos ⟨hne, hhex⟩]
      simp only []
      rw [if_neg (by omega)]
    rw [hpg]
    exact ih (fun q hq => h q (List.mem_cons_of_mem p hq)) _

theorem foldl_reverse_flatten (parts : List (List Char))
    (f : List Char → List Char) (hex0 : List Char) :
    parts.reverse.foldl (fun acc p => f p ++ acc) hex0
      = (parts.map f).flatten ++ hex0 := by
  induction parts generalizing hex0 with
  | nil => rfl
  | cons p rest ih =>
    rw [List.reverse_cons, List.foldl_append, List.map_cons, List.flatten_cons,
      List.append_assoc]
    show f p ++ rest.reverse.foldl (fun acc p => f p ++ acc) hex0 = _
    exact congrArg (f p ++ ·) (ih hex0)

theorem finishGroups_ok {parts : List (List Char)} (h : HexGroups parts)
    (hex0 : List Char) (hlen : hex0.length / 4 + parts.length = 8) :
    IPv6.finishGroups hex0 parts
      = .ok (parseHexNat ((parts.map (fun p => padStart 4 '0' (natToHex (parseHexNat p)))).flatten
          ++ hex0)) := by
  unfold IPv6.finishGroups
  rw [if_neg (by omega)]
  have hrev : HexGroups parts.reverse := by
    intro p hp
    exact h p (List.mem_reverse.mp hp)
  rw [groupLoop_ok hrev hex0, foldl_reverse_flatten]

theorem mem_join_colon_free {c : Char} {parts : List (List Char)} (hg : HexGroups parts)
    (h : c ∈ List.intercalate [':'] parts) : c = ':' ∨ isHexDigitChar c = true := by
  rcases mem_join h with h1 | ⟨p, hp, hcp⟩
  · simp at h1
    exact Or.inl h1
  · exact Or.inr (List.all_eq_true.mp (hg p hp).2.1 c hcp)

/-- Parsing the colon-join of exactly eight non-empty all-hex groups with
values at most `0xFFFF`: every pipeline stage is the identity except the
final accumulation, which pads each group to 4 digits and reads the
32-digit string as one number. -/
theorem fromStripped_join_groups {parts : List (List Char)} (h8 : parts.length = 8)
    (hg : HexGroups parts) :
    IPv6.fromStripped (List.intercalate [':'] parts)
      = .ok (parseHexNat
          ((parts.map (fun p => padStart 4 '0' (natToHex (parseHexNat p)))).flatten)) := by
  have hgood : GoodParts parts := hexGroups_goodParts hg
  have hnodot : '.' ∉ List.intercalate [':'] parts := by
    intro hmem
    rcases mem_join_colon_free hg hmem with h1 | h1
    · exact absurd h1 (by decide)
    · exact absurd h1 (by decide)
  have hlast : lastIndexOf '.' (List.intercalate [':'] parts) = -1 :=
    lastIndexOf_of_not_mem hnodot
  have hv4 : decide (0 < lastIndexOf '.' (List.intercalate [':'] parts)) = false := by
    rw [hlast]
    decide
  have hcolon : (':' : Char) ∈ List.intercalate [':'] parts := by
    obtain ⟨p1, t1, rfl⟩ : ∃ x t, parts = x :: t := by
      cases parts with
      | nil => simp at h8
      | cons x t => exact ⟨x, t, rfl⟩
    obtain ⟨p2, t2, rfl⟩ : ∃ x t2, t1 = x :: t2 := by
      cases t1 with
      | nil => simp at h8
      | cons x t2 => exact ⟨x, t2, rfl⟩
    rw [intercalate_cons₂]
    simp
  have hidx : ¬ jsIndexOf ':' (List.intercalate [':'] parts) < 0 := by
    have := jsIndexOf_nonneg_of_mem hcolon
    omega
  have hne8 : parts ≠ [] := by intro he; rw [he] at h8; simp at h8
  have hexp : IPv6.expandStep false (List.intercalate [':'] parts)
      = .ok (List.intercalate [':'] parts) := by
    have hh := join_head_ne_colon hgood hne8
    have hl := join_getLast_ne_colon hgood hne8
    simp only [IPv6.expandStep, countCC_join hgood, hh, hl]
    norm_num
    rw [if_neg hh, if_neg hl]
  have hsplit : (List.intercalate [':'] parts).splitOn ':' = parts :=
    List.splitOn_intercalate parts ':' (fun p hp => (hgood p hp).2) hne8
  have hfin := finishGroups_ok hg [] (by simpa using h8)
  unfold IPv6.fromStripped
  simp [hv4, hidx, hexp, hsplit, hfin]

/-! ## The eight 4-digit chunks of the 32-digit rendering -/

theorem fixedHex32_expand (v : Nat) :
    fixedHex 32 v = fixedHex 4 (v / 16 ^ 28) ++ (fixedHex 4 (v / 16 ^ 24) ++
      (fixedHex 4 (v / 16 ^ 20) ++ (fixedHex 4 (v / 16 ^ 16) ++ (fixedHex 4 (v / 16 ^ 12) ++
      (fixedHex 4 (v / 16 ^ 8) ++ (fixedHex 4 (v / 16 ^ 4) ++ fixedHex 4 v)))))) := by
  rw [show (32 : Nat) = 4 + 28 from rfl, fixedHex_append 4 28 v,
    show (28 : Nat) = 4 + 24 from rfl, fixedHex_append 4 24 v,
    show (24 : Nat) = 4 + 20 from rfl, fixedHex_append 4 20 v,
    show (20 : Nat) = 4 + 16 from rfl, fixedHex_append 4 16 v,
    show (16 : Nat) = 4 + 12 from rfl, fixedHex_append 4 12 v]
  rw [show (12 : Nat) = 4 + 8 from rfl, fixedHex_append 4 8 v,
    show (8 : Nat) = 4 + 4 from rfl, fixedHex_append 4 4 v]

theorem chunksOf4_fixedHex32 (v : Nat) :
    IPv6.chunksOf4 (fixedHex 32 v)
      = [fixedHex 4 (v / 16 ^ 28), fixedHex 4 (v / 16 ^ 24), fixedHex 4 (v / 16 ^ 20),
         fixedHex 4 (v / 16 ^ 16), fixedHex 4 (v / 16 ^ 12), fixedHex 4 (v / 16 ^ 8),
         fixedHex 4 (v / 16 ^ 4), fixedHex 4 v] := by
  rw [fixedHex32_expand,
    chunksOf4_block (fixedHex_length 4 _), chunksOf4_block (fixedHex_length 4 _),
    chunksOf4_block (fixedHex_length 4 _), chunksOf4_block (fixedHex_length 4 _),
    chunksOf4_block (fixedHex_length 4 _), chunksOf4_block (fixedHex_length 4 _),
    chunksOf4_block (fixedHex_length 4 _),
    ← List.append_nil (fixedHex 4 v), chunksOf4_block (fixedHex_length 4 _)]
  rfl

/-- Re-reading and re-padding a canonical 4-digit group is the identity. -/
theorem pad4norm_fixedHex (x : Nat) :
    padStart 4 '0' (natToHex (parseHexNat (fixedHex 4 x))) = fixedHex 4 x := by
  rw [parseHexNat_fixedHex,
    padStart_natToHex (Nat.mod_lt _ (by norm_num)) (by norm_num)]
  exact fixedHex_mod 4 x

theorem fixedHex4_group (x : Nat) :
    fixedHex 4 x ≠ [] ∧ (fixedHex 4 x).all isHexDigitChar = true
      ∧ parseHexNat (fixedHex 4 x) ≤ 0xFFFF := by
  refine ⟨?_, List.all_eq_true.mpr (fun c hc => mem_fixedHex_hex hc), ?_⟩
  · intro h
    have := fixedHex_length 4 x
    rw [h] at this
    simp at this
  · rw [parseHexNat_fixedHex]
    have := Nat.mod_lt x (show 0 < 16 ^ 4 by norm_num)
    omega

theorem hexGroups_chunks (v : Nat) : HexGroups (IPv6.chunksOf4 (fixedHex 32 v)) := by
  rw [chunksOf4_fixedHex32]
  intro p hp
  simp only [List.mem_cons, List.not_mem_nil, or_false] at hp
  rcases hp with rfl | rfl | rfl | rfl | rfl | rfl | rfl | rfl <;> exact fixedHex4_group _

theorem flatten_pad4norm_chunks (v : Nat) :
    ((IPv6.chunksOf4 (fixedHex 32 v)).map
        (fun p => padStart 4 '0' (natToHex (parseHexNat p)))).flatten = fixedHex 32 v := by
  rw [chunksOf4_fixedHex32]
  simp only [List.map_cons, List.map_nil, pad4norm_fixedHex, List.flatten_cons,
    List.flatten_nil, List.append_nil]
  rw [fixedHex32_expand]

theorem parseDecimal_natToDec (x : Nat) : IPv6.parseDecimal (natToDec x) = .ok x := by
  unfold IPv6.parseDecimal
  rw [if_pos ⟨natToDec_ne_nil x, List.all_eq_true.mpr (fun c hc => mem_natToDec_dec hc)⟩,
    parseDecNat_natToDec]

/-! ## Enumeration, filtering and the zero-streak scan -/

theorem enumFrom_getD {α : Type} (d : α) : ∀ (l : List α) (n : Nat) (p : Nat × α),
    p ∈ List.enumFrom n l → n ≤ p.1 ∧ l.getD (p.1 - n) d = p.2 := by
  intro l
  induction l with
  | nil => intro n p h; simp at h
  | cons a as ih =>
    intro n p h
    have h' : p = (n, a) ∨ p ∈ List.enumFrom (n + 1) as := by
      simpa using (h : p ∈ (n, a) :: List.enumFrom (n + 1) as)
    rcases h' with rfl | h'
    · exact ⟨Nat.le_refl n, by simp⟩
    · obtain ⟨h1, h2⟩ := ih (n + 1) p h'
      refine ⟨by omega, ?_⟩
      have he : p.1 - n = (p.1 - (n + 1)) + 1 := by omega
      rw [he]
      simpa using h2

theorem map_snd_enumFrom {α β : Type} (g : α → β) : ∀ (l : List α) (n : Nat),
    (List.enumFrom n l).map (fun p => g p.2) = l.map g := by
  intro l
  induction l with
  | nil => intro n; rfl
  | cons a as ih =>
    intro n
    show g a :: (List.enumFrom (n + 1) as).map (fun p => g p.2) = g a :: as.map g
    rw [ih]

theorem enumFrom_filter_lt {α : Type} : ∀ (l : List α) (n m : Nat),
    (List.enumFrom n l).filter (fun p => decide (p.1 < m)) = List.enumFrom n (l.take (m - n)) := by
  intro l
  induction l with
  | nil => intro n m; simp
  | cons a as ih =>
    intro n m
    show List.filter _ ((n, a) :: List.enumFrom (n + 1) as) = _
    rw [List.filter_cons]
    by_cases hnm : n < m
    · rw [if_pos (by simpa using hnm), ih (n + 1) m]
      obtain ⟨t, ht⟩ : ∃ t, m - n = t + 1 := ⟨m - n - 1, by omega⟩
      rw [ht, show m - (n + 1) = t from by omega]
      rfl
    · rw [if_neg (by simpa using hnm), ih (n + 1) m,
        show m - (n + 1) = 0 from by omega, show m - n = 0 from by omega]
      rfl

theorem enumFrom_filter_ge {α : Type} : ∀ (l : List α) (n m : Nat),
    (List.enumFrom n l).filter (fun p => decide (m ≤ p.1))
      = List.enumFrom (max n m) (l.drop (m - n)) := by
  intro l
  induction l with
  | nil => intro n m; simp
  | cons a as ih =>
    intro n m
    show List.filter _ ((n, a) :: List.enumFrom (n + 1) as) = _
    rw [List.filter_cons]
    by_cases h : m ≤ n
    · rw [if_pos (by simpa using h), ih (n + 1) m,
        show max (n + 1) m = n + 1 from by omega, show m - (n + 1) = 0 from by omega,
        show max n m = n from by omega, show m - n = 0 from by omega]
      rfl
    · rw [if_neg (by simpa using h), ih (n + 1) m,
        show max (n + 1) m = m from by omega, show max n m = m from by omega,
        show m - n = (m - (n + 1)) + 1 from by omega]
      rfl

theorem flatten_map_colon_right : ∀ (ps : List (List Char)), ps ≠ [] →
    (ps.map (fun p => p ++ [':'])).flatten = List.intercalate [':'] ps ++ [':']
  | [], h => absurd rfl h
  | [p], _ => by simp [intercalate_single]
  | p :: q :: t, _ => by
    rw [List.map_cons, List.flatten_cons, flatten_map_colon_right (q :: t) (by simp),
      intercalate_cons₂]
    simp [List.append_assoc]

theorem flatten_map_colon_left : ∀ (ps : List (List Char)), ps ≠ [] →
    (ps.map (fun p => ':' :: p)).flatten = ':' :: List.intercalate [':'] ps
  | [], h => absurd rfl h
  | [p], _ => by simp [intercalate_single]
  | p :: q :: t, _ => by
    rw [List.map_cons, List.flatten_cons, flatten_map_colon_left (q :: t) (by simp),
      intercalate_cons₂]
    simp [List.append_assoc]

/-- The zero-streak scan invariant: after any prefix, the recorded longest
start is a genuine index, the window fits in the scanned range, and every
group in the window satisfies the zero predicate `Z`. -/
theorem streak_fold (Z : Nat → Prop) :
    ∀ (l : List Nat) (n : Nat) (st : Nat × Int × Nat × Int),
      (∀ p ∈ List.enumFrom n l, p.2 = 0 → Z p.1) →
      (st.1 = 0 → st.2.1 = -1) →
      (0 < st.1 → ∃ c0 : Nat, st.2.1 = (c0 : Int) ∧ c0 + st.1 = n ∧
        ∀ i, c0 ≤ i → i < n → Z i) →
      (0 < st.2.2.1 → ∃ l0 : Nat, st.2.2.2 = (l0 : Int) ∧ l0 + st.2.2.1 ≤ n ∧
        ∀ i, l0 ≤ i → i < l0 + st.2.2.1 → Z i) →
      (0 < ((List.enumFrom n l).foldl IPv6.streakStep st).2.2.1 →
        ∃ l0 : Nat, ((List.enumFrom n l).foldl IPv6.streakStep st).2.2.2 = (l0 : Int) ∧
          l0 + ((List.enumFrom n l).foldl IPv6.streakStep st).2.2.1 ≤ n + l.length ∧
          ∀ i, l0 ≤ i → i < l0 + ((List.enumFrom n l).foldl IPv6.streakStep st).2.2.1 → Z i) := by
  intro l
  induction l with
  | nil =>
    intro n st hZ h0 hc hl hpos
    obtain ⟨l0, e1, e2, e3⟩ := hl hpos
    exact ⟨l0, e1, by simpa using e2, e3⟩
  | cons a as ih =>
    intro n st hZ h0 hc hl
    obtain ⟨cs, cst, ls, lst⟩ := st
    replace h0 : cs = 0 → cst = -1 := h0
    replace hc : 0 < cs → ∃ c0 : Nat, cst = (c0 : Int) ∧ c0 + cs = n ∧
        ∀ i, c0 ≤ i → i < n → Z i := hc
    replace hl : 0 < ls → ∃ l0 : Nat, lst = (l0 : Int) ∧ l0 + ls ≤ n ∧
        ∀ i, l0 ≤ i → i < l0 + ls → Z i := hl
    have heq : (List.enumFrom n (a :: as)).foldl IPv6.streakStep (cs, cst, ls, lst)
        = (List.enumFrom (n + 1) as).foldl IPv6.streakStep
            (IPv6.streakStep (cs, cst, ls, lst) (n, a)) := rfl
    rw [heq, List.length_cons]
    have hZ' : ∀ p ∈ List.enumFrom (n + 1) as, p.2 = 0 → Z p.1 :=
      fun p hp => hZ p (by exact List.mem_cons_of_mem (n, a) hp)
    have hfin : ∀ (cs' : Nat) (cst' : Int) (ls' : Nat) (lst' : Int),
        IPv6.streakStep (cs, cst, ls, lst) (n, a) = (cs', cst', ls', lst') →
        (cs' = 0 → cst' = -1) →
        (0 < cs' → ∃ c0 : Nat, cst' = (c0 : Int) ∧ c0 + cs' = n + 1 ∧
          ∀ i, c0 ≤ i → i < n + 1 → Z i) →
        (0 < ls' → ∃ l0 : Nat, lst' = (l0 : Int) ∧ l0 + ls' ≤ n + 1 ∧
          ∀ i, l0 ≤ i → i < l0 + ls' → Z i) →
        (0 < ((List.enumFrom (n + 1) as).foldl IPv6.streakStep
            (IPv6.streakStep (cs, cst, ls, lst) (n, a))).2.2.1 →
          ∃ l0 : Nat, ((List.enumFrom (n + 1) as).foldl IPv6.streakStep
              (IPv6.streakStep (cs, cst, ls, lst) (n, a))).2.2.2 = (l0 : Int) ∧
            l0 + ((List.enumFrom (n + 1) as).foldl IPv6.streakStep
              (IPv6.streakStep (cs, cst, ls, lst) (n, a))).2.2.1 ≤ n + (as.length + 1) ∧
            ∀ i, l0 ≤ i → i < l0 + ((List.enumFrom (n + 1) as).foldl IPv6.streakStep
              (IPv6.streakStep (cs, cst, ls, lst) (n, a))).2.2.1 → Z i) := by
      intro cs' cst' ls' lst' hst' g0 gc gl
      rw [hst']
      intro hpos
      obtain ⟨l0, e1, e2, e3⟩ := ih (n + 1) (cs', cst', ls', lst') hZ' g0 gc gl hpos
      exact ⟨l0, e1, by omega, e3⟩
    have hZn : a = 0 → Z n := fun ha => hZ (n, a) (by exact List.mem_cons_self _ _) ha
    by_cases ha : a = 0
    · by_cases hcst : cst < 0
      · have hcs0 : cs = 0 := by
          by_contra hcs
          obtain ⟨c0, e1, _, _⟩ := hc (Nat.pos_of_ne_zero hcs)
          rw [e1] at hcst
          omega
        subst hcs0
        by_cases hls : ls < 0 + 1
        · refine hfin 1 (n : Int) 1 (n : Int) (by simp [IPv6.streakStep, ha, hcst, hls])
            (by intro h; simp at h) ?_ ?_
          · intro _
            refine ⟨n, rfl, rfl, fun i hi1 hi2 => ?_⟩
            have : i = n := by omega
            subst this
            exact hZn ha
          · intro _
            refine ⟨n, rfl, by omega, fun i hi1 hi2 => ?_⟩
            have : i = n := by omega
            subst this
            exact hZn ha
        · refine hfin 1 (n : Int) ls lst (by simp [IPv6.streakStep, ha, hcst, hls])
            (by intro h; simp at h) ?_ ?_
          · intro _
            refine ⟨n, rfl, rfl, fun i hi1 hi2 => ?_⟩
            have : i = n := by omega
            subst this
            exact hZn ha
          · intro hlpos
            obtain ⟨l0, e1, e2, e3⟩ := hl hlpos
            exact ⟨l0, e1, by omega, e3⟩
      · have hcs : 0 < cs := by
          rcases Nat.eq_zero_or_pos cs with h | h
          · rw [h0 h] at hcst
            exact absurd (by norm_num) hcst
          · exact h
        obtain ⟨c0, e1, e2, e3⟩ := hc hcs
        have hwin : ∀ i, c0 ≤ i → i < n + 1 → Z i := by
          intro i hi1 hi2
          rcases Nat.lt_or_ge i n with h | h
          · exact e3 i hi1 h
          · have : i = n := by omega
            subst this
            exact hZn ha
        by_cases hls : ls < cs + 1
        · refine hfin (cs + 1) cst (cs + 1) cst (by simp [IPv6.streakStep, ha, hcst, hls])
            (by intro h; simp at h) ?_ ?_
          · intro _
            exact ⟨c0, e1, by omega, hwin⟩
          · intro _
            exact ⟨c0, e1, by omega, fun i hi1 hi2 => hwin i hi1 (by omega)⟩
        · refine hfin (cs + 1) cst ls lst (by simp [IPv6.streakStep, ha, hcst, hls])
            (by intro h; simp at h) ?_ ?_
          · intro _
            exact ⟨c0, e1, by omega, hwin⟩
          · intro hlpos
            obtain ⟨l0, f1, f2, f3⟩ := hl hlpos
            exact ⟨l0, f1, by omega, f3⟩
    · refine hfin 0 (-1) ls lst (by simp [IPv6.streakStep, ha])
        (fun _ => rfl) (by intro h; simp at h) ?_
      intro hlpos
      obtain ⟨l0, f1, f2, f3⟩ := hl hlpos
      exact ⟨l0, f1, by omega, f3⟩

/-- On a list whose scan reports a positive longest streak, the reported
start is an index `sn` with `sn + streak ≤ length` and every group in the
window is zero. -/
theorem longestZeroRun_spec {ip : List Nat} (hk : 0 < (IPv6.longestZeroRun ip).1) :
    ∃ sn : Nat, (IPv6.longestZeroRun ip).2 = (sn : Int)
      ∧ sn + (IPv6.longestZeroRun ip).1 ≤ ip.length
      ∧ ∀ i, sn ≤ i → i < sn + (IPv6.longestZeroRun ip).1 → ip.getD i 1 = 0 := by
  have hZ : ∀ p ∈ List.enumFrom 0 ip, p.2 = 0 → ip.getD p.1 1 = 0 := by
    intro p hp hp0
    have h2 := (enumFrom_getD 1 ip 0 p hp).2
    rw [hp0] at h2
    simpa using h2
  have h := streak_fold (fun i => ip.getD i 1 = 0) ip 0 (0, -1, 0, -1) hZ (fun _ => rfl)
    (by intro hh; simp at hh) (by intro hh; simp at hh)
  have e1 : (IPv6.longestZeroRun ip).1
      = ((List.enumFrom 0 ip).foldl IPv6.streakStep (0, -1, 0, -1)).2.2.1 := rfl
  have e2 : (IPv6.longestZeroRun ip).2
      = ((List.enumFrom 0 ip).foldl IPv6.streakStep (0, -1, 0, -1)).2.2.2 := rfl
  rw [e1] at hk
  obtain ⟨l0, f1, f2, f3⟩ := h hk
  exact ⟨l0, by rw [e2]; exact f1, by rw [e1]; simpa using f2, by rw [e1]; exact f3⟩

/-! ## The IPv4-mapped prefix test and the dotted-decimal rendering -/

theorem land_mask_eq (v : Nat) :
    Nat.land IPv6.IPV4MASK v = 2 ^ 32 * (v / 2 ^ 32 % 2 ^ 96) := by
  have h0 : Nat.land IPv6.IPV4MASK v = IPv6.IPV4MASK &&& v := rfl
  have hmask : IPv6.IPV4MASK = 2 ^ 32 * (2 ^ 96 - 1) := by decide
  rw [h0, hmask]
  apply Nat.eq_of_testBit_eq
  intro i
  rw [Nat.testBit_land, Nat.testBit_mul_pow_two, Nat.testBit_mul_pow_two,
    Nat.testBit_mod_two_pow, Nat.testBit_two_pow_sub_one,
    ← Nat.shiftRight_eq_div_pow, Nat.testBit_shiftRight]
  by_cases h32 : 32 ≤ i
  · have hi : 32 + (i - 32) = i := by omega
    rw [hi]
    simp [ge_iff_le, h32, Bool.and_assoc, Bool.and_comm]
  · simp [ge_iff_le, h32]

theorem isIPv4_iff (v : Nat) : IPv6.isIPv4 v = true ↔ v / 2 ^ 32 % 2 ^ 96 = 0xffff := by
  unfold IPv6.isIPv4
  rw [decide_eq_true_eq, land_mask_eq]
  have hp : IPv6.IPV4PREFIX = 0xffff00000000 := rfl
  rw [hp]
  generalize v / 2 ^ 32 % 2 ^ 96 = x
  omega

theorem isIPv4_div {v : Nat} (hv : v < 2 ^ 128) :
    IPv6.isIPv4 v = true ↔ v / 2 ^ 32 = 0xffff := by
  rw [isIPv4_iff]
  have h1 : v / 2 ^ 32 < 2 ^ 96 :=
    Nat.div_lt_of_lt_mul (by rw [show (2:Nat) ^ 32 * 2 ^ 96 = 2 ^ 128 from by norm_num]; exact hv)
  rw [Nat.mod_eq_of_lt h1]

theorem hexDigitChar_ne_zero {n : Nat} (h1 : 1 ≤ n) (h2 : n < 16) : hexDigitChar n ≠ '0' := by
  interval_cases n <;> decide

theorem natToHex_eq_fixedHex {k v : Nat} (hlo : 16 ^ k ≤ v) (hhi : v < 16 ^ (k + 1)) :
    natToHex v = fixedHex (k + 1) v := by
  have hle : (natToHex v).length ≤ k + 1 := natToHex_length_le hhi (by omega)
  have hpad := padStart_natToHex hhi (by omega)
  unfold padStart at hpad
  rcases Nat.lt_or_ge (natToHex v).length (k + 1) with hlt | hge
  · exfalso
    have hhead : (fixedHex (k + 1) v).head? = some '0' := by
      rw [← hpad]
      obtain ⟨m, hm⟩ : ∃ m, k + 1 - (natToHex v).length = m + 1 :=
        ⟨k - (natToHex v).length, by omega⟩
      rw [hm, List.replicate_succ, List.cons_append, List.head?_cons]
    have hsplit : fixedHex (k + 1) v = fixedHex 1 (v / 16 ^ k) ++ fixedHex k v := by
      rw [Nat.add_comm k 1]
      exact fixedHex_append 1 k v
    have h1 : fixedHex 1 (v / 16 ^ k) = [hexDigitChar (v / 16 ^ k % 16)] := rfl
    rw [hsplit, h1, List.cons_append, List.head?_cons, Option.some.injEq] at hhead
    have hdlo : 1 ≤ v / 16 ^ k := (Nat.one_le_div_iff (Nat.pos_pow_of_pos k (by norm_num))).mpr hlo
    have hdhi : v / 16 ^ k < 16 :=
      Nat.div_lt_of_lt_mul (by rw [← pow_succ]; exact hhi)
    rw [Nat.mod_eq_of_lt hdhi] at hhead
    exact hexDigitChar_ne_zero hdlo hdhi hhead
  · have h0 : k + 1 - (natToHex v).length = 0 := by omega
    rw [h0] at hpad
    simpa using hpad

/-- The six 2-digit chunks of the 12-digit hex rendering of an IPv4-mapped
value. -/
theorem chunksOf2_fixedHex12 (v : Nat) :
    IPv6.chunksOf2 (fixedHex 12 v)
      = [fixedHex 2 (v / 16 ^ 10), fixedHex 2 (v / 16 ^ 8), fixedHex 2 (v / 16 ^ 6),
         fixedHex 2 (v / 16 ^ 4), fixedHex 2 (v / 16 ^ 2), fixedHex 2 v] := by
  rw [show (12 : Nat) = 2 + 10 from rfl, fixedHex_append 2 10 v,
    chunksOf2_block (fixedHex_length 2 _),
    show (10 : Nat) = 2 + 8 from rfl, fixedHex_append 2 8 v,
    chunksOf2_block (fixedHex_length 2 _),
    show (8 : Nat) = 2 + 6 from rfl, fixedHex_append 2 6 v,
    chunksOf2_block (fixedHex_length 2 _),
    show (6 : Nat) = 2 + 4 from rfl, fixedHex_append 2 4 v,
    chunksOf2_block (fixedHex_length 2 _),
    show (4 : Nat) = 2 + 2 from rfl, fixedHex_append 2 2 v,
    chunksOf2_block (fixedHex_length 2 _),
    ← List.append_nil (fixedHex 2 v), chunksOf2_block (fixedHex_length 2 _)]
  rfl

theorem ipv4Dotted_eq {v : Nat} (h4 : IPv6.isIPv4 v = true) (hv : v < 2 ^ 128) :
    IPv6.ipv4Dotted v = List.intercalate ['.']
      [natToDec (v / 2 ^ 24 % 2 ^ 8), natToDec (v / 2 ^ 16 % 2 ^ 8),
       natToDec (v / 2 ^ 8 % 2 ^ 8), natToDec (v % 2 ^ 8)] := by
  have hdiv : v / 2 ^ 32 = 0xffff := (isIPv4_div hv).mp h4
  have hlo : 16 ^ 11 ≤ v := by
    rw [show (16:Nat) ^ 11 = 2 ^ 44 from by norm_num]
    omega
  have hhi : v < 16 ^ 12 := by
    rw [show (16:Nat) ^ 12 = 2 ^ 48 from by norm_num]
    omega
  have hhex : natToHex v = fixedHex 12 v := natToHex_eq_fixedHex hlo hhi
  unfold IPv6.ipv4Dotted
  rw [hhex, chunksOf2_fixedHex12]
  simp only [List.length_cons, List.length_nil, List.drop, List.map_cons, List.map_nil]
  rw [parseHexNat_fixedHex, parseHexNat_fixedHex, parseHexNat_fixedHex, parseHexNat_fixedHex]
  norm_num [Nat.div_div_eq_div_mul]

/-! ## Parsing a join with one elision -/

theorem fromStripped_elided {ps ss : List (List Char)}
    (hgps : HexGroups ps) (hgss : HexGroups ss)
    (hdot : ∀ p ∈ ps ++ ss, '.' ∉ p)
    (hT : ps.length + ss.length ≤ 8)
    (hps0 : ps = [] → ss ≠ [] → ps.length + ss.length + 1 ≤ 8)
    (hss0 : ss = [] → ps ≠ [] → ps.length + ss.length + 1 ≤ 8) :
    IPv6.fromStripped (List.intercalate [':'] ps ++ ':' :: ':' :: List.intercalate [':'] ss)
      = .ok (parseHexNat
          (((ps ++ List.replicate (8 - (ps.length + ss.length)) ['0'] ++ ss).map
            (fun p => padStart 4 '0' (natToHex (parseHexNat p)))).flatten)) := by
  have hgoodps := hexGroups_goodParts hgps
  have hgoodss := hexGroups_goodParts hgss
  have hnodot : '.' ∉ List.intercalate [':'] ps ++ ':' :: ':' :: List.intercalate [':'] ss := by
    intro hmem
    rcases List.mem_append.mp hmem with h1 | h1
    · rcases mem_join h1 with h2 | ⟨p, hp, hcp⟩
      · simp at h2
      · exact hdot p (List.mem_append_left _ hp) hcp
    · simp only [List.mem_cons] at h1
      rcases h1 with h2 | h2 | h1
      · exact absurd h2 (by decide)
      · exact absurd h2 (by decide)
      · rcases mem_join h1 with h2 | ⟨p, hp, hcp⟩
        · simp at h2
        · exact hdot p (List.mem_append_right _ hp) hcp
  have hv4 : decide (0 < lastIndexOf '.'
      (List.intercalate [':'] ps ++ ':' :: ':' :: List.intercalate [':'] ss)) = false := by
    rw [lastIndexOf_of_not_mem hnodot]
    decide
  have hcolon : (':' : Char) ∈
      List.intercalate [':'] ps ++ ':' :: ':' :: List.intercalate [':'] ss := by
    simp
  have hidx : ¬ jsIndexOf ':'
      (List.intercalate [':'] ps ++ ':' :: ':' :: List.intercalate [':'] ss) < 0 := by
    have := jsIndexOf_nonneg_of_mem hcolon
    omega
  have hexp := expandStep_join false ps ss hgoodps hgoodss (by simpa using hT)
    (by intro h1 h2; simpa using hps0 h1 h2) (by intro h1 h2; simpa using hss0 h1 h2)
  rw [show (if false = true then 7 else 8) = 8 from rfl] at hexp
  have hgfull : HexGroups (ps ++ List.replicate (8 - (ps.length + ss.length)) ['0'] ++ ss) := by
    intro p hp
    rcases List.mem_append.mp hp with hp1 | hp2
    · rcases List.mem_append.mp hp1 with hp1a | hp1b
      · exact hgps p hp1a
      · rw [List.eq_of_mem_replicate hp1b]
        exact ⟨by simp, by decide, by decide⟩
    · exact hgss p hp2
  have hlen : (ps ++ List.replicate (8 - (ps.length + ss.length)) ['0'] ++ ss).length = 8 := by
    simp only [List.length_append, List.length_replicate]
    omega
  have hneful : (ps ++ List.replicate (8 - (ps.length + ss.length)) ['0'] ++ ss) ≠ [] := by
    intro h
    rw [h] at hlen
    simp at hlen
  have hsplit := List.splitOn_intercalate
    (ps ++ List.replicate (8 - (ps.length + ss.length)) ['0'] ++ ss) ':'
    (fun p hp => (hexGroups_goodParts hgfull p hp).2) hneful
  have hfin := finishGroups_ok hgfull [] (by simpa using hlen)
  set full := ps ++ List.replicate (8 - (ps.length + ss.length)) ['0'] ++ ss with hfull
  unfold IPv6.fromStripped
  simp [hv4, hidx, hexp, hsplit, hfin]

/-! ## Reassembling the elided rendering -/

theorem flatten_fixedHex4_ip (v : Nat) :
    (((IPv6.chunksOf4 (fixedHex 32 v)).map parseHexNat).map (fixedHex 4)).flatten
      = fixedHex 32 v := by
  rw [chunksOf4_fixedHex32]
  simp only [List.map_cons, List.map_nil, parseHexNat_fixedHex, List.flatten_cons,
    List.flatten_nil, List.append_nil, fixedHex_mod]
  rw [fixedHex32_expand]

theorem flatten_map_hex_right (l : List Nat) (h : l ≠ []) :
    (l.map (fun x => natToHex x ++ [':'])).flatten
      = List.intercalate [':'] (l.map natToHex) ++ [':'] := by
  have he : l.map (fun x => natToHex x ++ [':'])
      = (l.map natToHex).map (fun p => p ++ [':']) := by
    rw [List.map_map]
    rfl
  rw [he, flatten_map_colon_right _ (by simpa using h)]

theorem flatten_map_hex_left (l : List Nat) (h : l ≠ []) :
    (l.map (fun x => ':' :: natToHex x)).flatten
      = ':' :: List.intercalate [':'] (l.map natToHex) := by
  have he : l.map (fun x => ':' :: natToHex x)
      = (l.map natToHex).map (fun p => ':' :: p) := by
    rw [List.map_map]
    rfl
  rw [he, flatten_map_colon_left _ (by simpa using h)]

theorem slice_replicate_zero (ip : List Nat) (sn K : Nat) (h8 : sn + K ≤ ip.length)
    (hz : ∀ i, sn ≤ i → i < sn + K → ip.getD i 1 = 0) :
    (ip.drop sn).take K = List.replicate K 0 := by
  apply List.eq_replicate_iff.mpr
  constructor
  · rw [List.length_take, List.length_drop]
    omega
  · intro b hb
    obtain ⟨i, hi, hgi⟩ := List.mem_iff_getElem.mp hb
    have hiK : i < K := by
      rw [List.length_take, List.length_drop] at hi
      omega
    have hisn : sn + i < ip.length := by omega
    rw [List.getElem_take, List.getElem_drop] at hgi
    have hzi := hz (sn + i) (by omega) (by omega)
    rw [List.getD_eq_getElem ip 1 hisn] at hzi
    rw [← hgi]
    exact hzi

theorem map_fixedHex4_slices (ip : List Nat) (sn K : Nat) (h8 : sn + K ≤ ip.length)
    (hz : ∀ i, sn ≤ i → i < sn + K → ip.getD i 1 = 0) :
    ip.map (fixedHex 4)
      = (ip.take sn).map (fixedHex 4) ++ List.replicate K (fixedHex 4 0)
        ++ (ip.drop (sn + K)).map (fixedHex 4) := by
  have h2 : (ip.drop sn).drop K = ip.drop (sn + K) := by
    rw [List.drop_drop, Nat.add_comm]
  have h1 : ip = ip.take sn ++ ((ip.drop sn).take K ++ (ip.drop sn).drop K) := by
    rw [List.take_append_drop, List.take_append_drop]
  conv_lhs => rw [h1]
  rw [List.map_append, List.map_append, slice_replicate_zero ip sn K h8 hz, h2,
    List.map_replicate, List.append_assoc]

/-- `toIPv6StringCore` with the 32-digit padding already rewritten to
`fixedHex`, exposing the two rendering branches. -/
theorem toIPv6StringCore_lets (v : Nat) (hv16 : v < 16 ^ 32) :
    IPv6.toIPv6StringCore v =
      (let ip := (IPv6.chunksOf4 (fixedHex 32 v)).map parseHexNat
       let r := IPv6.longestZeroRun ip
       if r.1 ≤ 1 then
         List.intercalate [':'] (IPv6.chunksOf4 (fixedHex 32 v))
       else
         (if r.2 = 0 then [':'] else []) ++
         ((ip.enum.filter (fun p => (p.1 : Int) < r.2)).map
           (fun p => natToHex p.2 ++ [':'])).flatten ++
         ((ip.enum.filter (fun p => r.2 + (r.1 : Int) ≤ (p.1 : Int))).map
           (fun p => ':' :: natToHex p.2)).flatten ++
         (if r.2 + (r.1 : Int) = 8 then [':'] else [])) := by
  unfold IPv6.toIPv6StringCore
  rw [padStart_natToHex hv16 (by norm_num)]

theorem toIPv6StringCore_eq (v : Nat) (hv16 : v < 16 ^ 32)
    (ip : List Nat) (hip : (IPv6.chunksOf4 (fixedHex 32 v)).map parseHexNat = ip)
    (K : Nat) (s : Int) (hr : IPv6.longestZeroRun ip = (K, s)) :
    IPv6.toIPv6StringCore v =
      (if K ≤ 1 then
        List.intercalate [':'] (IPv6.chunksOf4 (fixedHex 32 v))
      else
        (if s = 0 then [':'] else []) ++
        ((ip.enum.filter (fun p => (p.1 : Int) < s)).map
          (fun p => natToHex p.2 ++ [':'])).flatten ++
        ((ip.enum.filter (fun p => s + (K : Int) ≤ (p.1 : Int))).map
          (fun p => ':' :: natToHex p.2)).flatten ++
        (if s + (K : Int) = 8 then [':'] else [])) := by
  have h0 := toIPv6StringCore_lets v hv16
  rw [hip] at h0
  simp only [hr] at h0
  exact h0

theorem mem_ip_lt (v : Nat) (ip : List Nat)
    (hip : (IPv6.chunksOf4 (fixedHex 32 v)).map parseHexNat = ip) :
    ∀ x ∈ ip, x < 16 ^ 4 := by
  rw [← hip]
  intro x hx
  rcases List.mem_map.mp hx with ⟨c, hc, rfl⟩
  rw [chunksOf4_fixedHex32] at hc
  simp only [List.mem_cons, List.not_mem_nil, or_false] at hc
  rcases hc with rfl | rfl | rfl | rfl | rfl | rfl | rfl | rfl <;>
    (rw [parseHexNat_fixedHex]; exact Nat.mod_lt _ (by norm_num))

/-- The value read back from the expanded form of the elided rendering is
the original value. -/
theorem elided_value (v : Nat) (hv16 : v < 16 ^ 32) (ip : List Nat)
    (hip : (IPv6.chunksOf4 (fixedHex 32 v)).map parseHexNat = ip)
    (sn K : Nat) (hsk : sn + K ≤ 8)
    (hz : ∀ i, sn ≤ i → i < sn + K → ip.getD i 1 = 0) :
    parseHexNat ((((ip.take sn).map natToHex ++
        List.replicate (8 - (((ip.take sn).map natToHex).length
          + ((ip.drop (sn + K)).map natToHex).length)) ['0'] ++
        (ip.drop (sn + K)).map natToHex).map
          (fun p => padStart 4 '0' (natToHex (parseHexNat p)))).flatten) = v := by
  have hip8 : ip.length = 8 := by
    rw [← hip, chunksOf4_fixedHex32]
    rfl
  have hmem := mem_ip_lt v ip hip
  have hcnt : 8 - (((ip.take sn).map natToHex).length
      + ((ip.drop (sn + K)).map natToHex).length) = K := by
    simp only [List.length_map, List.length_take, List.length_drop, hip8]
    omega
  rw [hcnt, List.map_append, List.map_append, List.map_map, List.map_map,
    List.map_replicate]
  have hone : padStart 4 '0' (natToHex (parseHexNat (['0'] : List Char)))
      = fixedHex 4 0 := by decide
  rw [hone]
  have htk : ((fun p => padStart 4 '0' (natToHex (parseHexNat p))) ∘ natToHex) = fun x =>
      padStart 4 '0' (natToHex (parseHexNat (natToHex x))) := rfl
  rw [htk]
  have hct : ∀ x ∈ ip.take sn,
      padStart 4 '0' (natToHex (parseHexNat (natToHex x))) = fixedHex 4 x := fun x hx => by
    rw [parseHexNat_natToHex,
      padStart_natToHex (hmem x (List.mem_of_mem_take hx)) (by norm_num)]
  have hcd : ∀ x ∈ ip.drop (sn + K),
      padStart 4 '0' (natToHex (parseHexNat (natToHex x))) = fixedHex 4 x := fun x hx => by
    rw [parseHexNat_natToHex,
      padStart_natToHex (hmem x (List.mem_of_mem_drop hx)) (by norm_num)]
  rw [List.map_congr_left hct, List.map_congr_left hcd]
  rw [← map_fixedHex4_slices ip sn K (by omega) hz, ← hip, flatten_fixedHex4_ip,
    parseHexNat_fixedHex, Nat.mod_eq_of_lt hv16]

theorem hexGroups_all_hex {ps : List (List Char)} (h : HexGroups ps) :
    ∀ p ∈ ps, ∀ c ∈ p, isHexDigitChar c = true :=
  fun p hp c hc => List.all_eq_true.mp (h p hp).2.1 c hc

theorem join_groups_no_space {ps : List (List Char)}
    (h : ∀ p ∈ ps, ∀ c ∈ p, isHexDigitChar c = true) :
    ∀ c ∈ List.intercalate [':'] ps, isJsSpace c = false := by
  intro c hc
  rcases mem_join hc with h1 | ⟨p, hp, hcp⟩
  · simp at h1
    subst h1
    decide
  · exact hexChar_not_space (h p hp c hcp)

theorem elided_no_space {ps ss : List (List Char)}
    (hp : ∀ p ∈ ps, ∀ c ∈ p, isHexDigitChar c = true)
    (hs : ∀ p ∈ ss, ∀ c ∈ p, isHexDigitChar c = true) :
    ∀ c ∈ List.intercalate [':'] ps ++ ':' :: ':' :: List.intercalate [':'] ss,
      isJsSpace c = false := by
  intro c hc
  rcases List.mem_append.mp hc with h1 | h1
  · exact join_groups_no_space hp c h1
  · simp only [List.mem_cons] at h1
    rcases h1 with rfl | rfl | h1
    · decide
    · decide
    · exact join_groups_no_space hs c h1

/-- Re-parsing the non-dot-decimal rendering of any in-range value yields
the value back (whitespace removal is the identity on the rendering). -/
theorem fromString_core {v : Nat} (hv : v < 2 ^ 128) :
    IPv6.fromString (IPv6.toIPv6StringCore v) = .ok v := by
  show IPv6.fromStripped (stripFirstSpaceRun (IPv6.toIPv6StringCore v)) = .ok v
  have hv16 : v < 16 ^ 32 := by
    rw [show (16 : Nat) ^ 32 = 2 ^ 128 from by norm_num]
    exact hv
  obtain ⟨ip, hip⟩ : ∃ ip, (IPv6.chunksOf4 (fixedHex 32 v)).map parseHexNat = ip := ⟨_, rfl⟩
  obtain ⟨K, s, hr⟩ : ∃ K s, IPv6.longestZeroRun ip = (K, s) :=
    ⟨(IPv6.longestZeroRun ip).1, (IPv6.longestZeroRun ip).2, rfl⟩
  have hip8 : ip.length = 8 := by
    rw [← hip, chunksOf4_fixedHex32]
    rfl
  rw [toIPv6StringCore_eq v hv16 ip hip K s hr]
  by_cases hK1 : K ≤ 1
  · rw [if_pos hK1]
    rw [strip_of_no_space (join_groups_no_space (hexGroups_all_hex (hexGroups_chunks v)))]
    rw [fromStripped_join_groups (by rw [chunksOf4_fixedHex32]; rfl) (hexGroups_chunks v),
      flatten_pad4norm_chunks, parseHexNat_fixedHex, Nat.mod_eq_of_lt hv16]
  · rw [if_neg hK1]
    have hKpos : 0 < (IPv6.longestZeroRun ip).1 := by
      rw [hr]
      show 0 < K
      omega
    obtain ⟨sn, hsn0, hsk0, hz0⟩ := longestZeroRun_spec hKpos
    rw [hr] at hsn0 hsk0 hz0
    have hs : s = (sn : Int) := hsn0
    have hsk : sn + K ≤ 8 := by
      have h' : sn + K ≤ ip.length := hsk0
      omega
    have hz : ∀ i, sn ≤ i → i < sn + K → ip.getD i 1 = 0 := hz0
    subst hs
    have henum : ip.enum = List.enumFrom 0 ip := rfl
    have hcong1 : ∀ p ∈ List.enumFrom 0 ip,
        (decide ((p.1 : Int) < (sn : Int))) = (decide (p.1 < sn)) :=
      fun p _ => decide_eq_decide.mpr (by omega)
    have hcong2 : ∀ p ∈ List.enumFrom 0 ip,
        (decide ((sn : Int) + (K : Int) ≤ (p.1 : Int))) = (decide (sn + K ≤ p.1)) :=
      fun p _ => decide_eq_decide.mpr (by omega)
    rw [henum, List.filter_congr hcong1, List.filter_congr hcong2,
      enumFrom_filter_lt ip 0 sn, enumFrom_filter_ge ip 0 (sn + K), Nat.sub_zero, Nat.sub_zero,
      show max 0 (sn + K) = sn + K from by omega,
      map_snd_enumFrom (fun x => natToHex x ++ [':']) (ip.take sn) 0,
      map_snd_enumFrom (fun x => ':' :: natToHex x) (ip.drop (sn + K)) (sn + K)]
    have hgps : HexGroups ((ip.take sn).map natToHex) := by
      intro p hp
      rcases List.mem_map.mp hp with ⟨x, hx, rfl⟩
      have hxlt := mem_ip_lt v ip hip x (List.mem_of_mem_take hx)
      exact ⟨natToHex_ne_nil x, List.all_eq_true.mpr (fun c hc => mem_natToHex_hex hc),
        by rw [parseHexNat_natToHex]; omega⟩
    have hgss : HexGroups ((ip.drop (sn + K)).map natToHex) := by
      intro p hp
      rcases List.mem_map.mp hp with ⟨x, hx, rfl⟩
      have hxlt := mem_ip_lt v ip hip x (List.mem_of_mem_drop hx)
      exact ⟨natToHex_ne_nil x, List.all_eq_true.mpr (fun c hc => mem_natToHex_hex hc),
        by rw [parseHexNat_natToHex]; omega⟩
    have hdot : ∀ p ∈ (ip.take sn).map natToHex ++ (ip.drop (sn + K)).map natToHex,
        '.' ∉ p := by
      intro p hp hdp
      rcases List.mem_append.mp hp with h | h <;>
        (rcases List.mem_map.mp h with ⟨x, hx, rfl⟩;
          exact hexChar_ne_dot (mem_natToHex_hex hdp) rfl)
    have hlps : ((ip.take sn).map natToHex).length = sn := by
      rw [List.length_map, List.length_take, hip8]
      omega
    have hlss : ((ip.drop (sn + K)).map natToHex).length = 8 - (sn + K) := by
      rw [List.length_map, List.length_drop, hip8]
    have hT : ((ip.take sn).map natToHex).length + ((ip.drop (sn + K)).map natToHex).length
        ≤ 8 := by omega
    have hT1 : ((ip.take sn).map natToHex).length + ((ip.drop (sn + K)).map natToHex).length
        + 1 ≤ 8 := by omega
    have hvalue := elided_value v hv16 ip hip sn K hsk hz
    have hparse := fromStripped_elided hgps hgss hdot hT (fun _ _ => hT1) (fun _ _ => hT1)
    rw [hvalue] at hparse
    by_cases hsn0 : sn = 0
    · subst hsn0
      rw [if_pos (by norm_num)]
      by_cases hk8 : 0 + K = 8
      · rw [if_pos (by exact_mod_cast hk8)]
        have hshape : ([':'] : List Char) ++
            ((ip.take 0).map (fun x => natToHex x ++ [':'])).flatten ++
            ((ip.drop (0 + K)).map (fun x => ':' :: natToHex x)).flatten ++ [':']
            = List.intercalate [':'] ((ip.take 0).map natToHex) ++ ':' :: ':' ::
              List.intercalate [':'] ((ip.drop (0 + K)).map natToHex) := by
          have hd : ip.drop (0 + K) = [] := by
            apply List.eq_nil_of_length_eq_zero
            rw [List.length_drop, hip8]
            omega
          rw [hd, List.take_zero]
          rfl
        rw [hshape,
          strip_of_no_space (elided_no_space (hexGroups_all_hex hgps) (hexGroups_all_hex hgss)),
          hparse]
      · rw [if_neg (by intro hc; exact hk8 (by exact_mod_cast hc))]
        have hdne : ip.drop (0 + K) ≠ [] := by
          intro hc
          have := congrArg List.length hc
          rw [List.length_drop, hip8] at this
          simp at this
          omega
        have hshape : ([':'] : List Char) ++
            ((ip.take 0).map (fun x => natToHex x ++ [':'])).flatten ++
            ((ip.drop (0 + K)).map (fun x => ':' :: natToHex x)).flatten ++ []
            = List.intercalate [':'] ((ip.take 0).map natToHex) ++ ':' :: ':' ::
              List.intercalate [':'] ((ip.drop (0 + K)).map natToHex) := by
          rw [flatten_map_hex_left (ip.drop (0 + K)) hdne, List.take_zero]
          simp [intercalate_nil]
        rw [hshape,
          strip_of_no_space (elided_no_space (hexGroups_all_hex hgps) (hexGroups_all_hex hgss)),
          hparse]
    · rw [if_neg (by simpa using hsn0)]
      have htne : ip.take sn ≠ [] := by
        intro hc
        have := congrArg List.length hc
        rw [List.length_take, hip8] at this
        simp at this
        omega
      by_cases hk8 : sn + K = 8
      · rw [if_pos (by exact_mod_cast hk8)]
        have hd : ip.drop (sn + K) = [] := by
          apply List.eq_nil_of_length_eq_zero
          rw [List.length_drop, hip8]
          omega
        have hshape : ([] : List Char) ++
            ((ip.take sn).map (fun x => natToHex x ++ [':'])).flatten ++
            ((ip.drop (sn + K)).map (fun x => ':' :: natToHex x)).flatten ++ [':']
            = List.intercalate [':'] ((ip.take sn).map natToHex) ++ ':' :: ':' ::
              List.intercalate [':'] ((ip.drop (sn + K)).map natToHex) := by
          rw [hd, flatten_map_hex_right (ip.take sn) htne]
          simp [List.append_assoc, intercalate_nil]
        rw [hshape,
          strip_of_no_space (elided_no_space (hexGroups_all_hex hgps) (hexGroups_all_hex hgss)),
          hparse]
      · rw [if_neg (by intro hc; exact hk8 (by exact_mod_cast hc))]
        have hdne : ip.drop (sn + K) ≠ [] := by
          intro hc
          have := congrArg List.length hc
          rw [List.length_drop, hip8] at this
          simp at this
          omega
        have hshape : ([] : List Char) ++
            ((ip.take sn).map (fun x => natToHex x ++ [':'])).flatten ++
            ((ip.drop (sn + K)).map (fun x => ':' :: natToHex x)).flatten ++ []
            = List.intercalate [':'] ((ip.take sn).map natToHex) ++ ':' :: ':' ::
              List.intercalate [':'] ((ip.drop (sn + K)).map natToHex) := by
          rw [flatten_map_hex_right (ip.take sn) htne,
            flatten_map_hex_left (ip.drop (sn + K)) hdne]
          simp [List.append_assoc]
        rw [hshape,
          strip_of_no_space (elided_no_space (hexGroups_all_hex hgps) (hexGroups_all_hex hgss)),
          hparse]

theorem quadBytes_cons {q : List Char} {x : Nat} (hq : IPv6.parseDecimal q = .ok x)
    (hx : ¬ 255 < x) {rest : List (List Char)} {out : List Char}
    (hrest : IPv6.quadBytes rest = .ok out) :
    IPv6.quadBytes (q :: rest) = .ok (padStart 2 '0' (natToHex x) ++ out) := by
  unfold IPv6.quadBytes
  rw [hq]
  simp only [pure_bind]
  rw [if_neg hx, hrest]
  rfl

theorem quadBytes_four (a b c d : Nat) (ha : a ≤ 255) (hb : b ≤ 255) (hc : c ≤ 255)
    (hd : d ≤ 255) :
    IPv6.quadBytes [natToDec a, natToDec b, natToDec c, natToDec d]
      = .ok (fixedHex 2 a ++ (fixedHex 2 b ++ (fixedHex 2 c ++ fixedHex 2 d))) := by
  have hpad : ∀ x : Nat, x ≤ 255 → padStart 2 '0' (natToHex x) = fixedHex 2 x :=
    fun x hx => padStart_natToHex (by omega) (by norm_num)
  have h0 : IPv6.quadBytes [] = .ok [] := rfl
  have h1 := quadBytes_cons (parseDecimal_natToDec d) (by omega) h0
  have h2 := quadBytes_cons (parseDecimal_natToDec c) (by omega) h1
  have h3 := quadBytes_cons (parseDecimal_natToDec b) (by omega) h2
  have h4 := quadBytes_cons (parseDecimal_natToDec a) (by omega) h3
  rw [hpad a ha, hpad b hb, hpad c hc, hpad d hd, List.append_nil] at h4
  exact h4

/-- Re-parsing the dot-decimal rendering of an IPv4-mapped value (with the
`::ffff:` prefix the renderer adds) yields the value back. -/
theorem fromStripped_v4_mapped {v : Nat} (h4 : IPv6.isIPv4 v = true) (hv : v < 2 ^ 128) :
    IPv6.fromStripped ((':' :: ':' :: 'f' :: 'f' :: 'f' :: 'f' :: ':' :: []) ++ IPv6.ipv4Dotted v)
      = .ok v := by
  have hdot := ipv4Dotted_eq h4 hv
  have hDne : ∀ x : Nat, natToDec x ≠ [] := natToDec_ne_nil
  have hDdot : ∀ (x : Nat) (c : Char), c ∈ natToDec x → c ≠ '.' :=
    fun x c hc => decChar_ne_dot (mem_natToDec_dec hc)
  have hDcolon : ∀ (x : Nat) (c : Char), c ∈ natToDec x → c ≠ ':' :=
    fun x c hc => decChar_ne_colon (mem_natToDec_dec hc)
  have hdne : IPv6.ipv4Dotted v ≠ [] := by
    rw [hdot, intercalate_cons₂]
    simp [hDne]
  have hdnc : (':' : Char) ∉ IPv6.ipv4Dotted v := by
    rw [hdot]
    intro hmem
    rcases mem_join hmem with h1 | ⟨p, hp, hcp⟩
    · simp at h1
    · simp only [List.mem_cons, List.not_mem_nil, or_false] at hp
      rcases hp with rfl | rfl | rfl | rfl <;> exact hDcolon _ _ hcp rfl
  have hddot : ('.' : Char) ∈ IPv6.ipv4Dotted v := by
    rw [hdot, intercalate_cons₂]
    simp
  have hgdot : GoodParts [['f', 'f', 'f', 'f'], IPv6.ipv4Dotted v] := by
    intro p hp
    simp only [List.mem_cons, List.not_mem_nil, or_false] at hp
    rcases hp with rfl | rfl
    · exact ⟨by simp, by decide⟩
    · exact ⟨hdne, hdnc⟩
  have hTt : ([] : List (List Char)).length + [['f', 'f', 'f', 'f'], IPv6.ipv4Dotted v].length
      ≤ if (true : Bool) = true then 7 else 8 := by simp
  have hTt1 : ([] : List (List Char)).length + [['f', 'f', 'f', 'f'], IPv6.ipv4Dotted v].length + 1
      ≤ if (true : Bool) = true then 7 else 8 := by simp
  have hexp := expandStep_join true [] [['f', 'f', 'f', 'f'], IPv6.ipv4Dotted v]
    (by intro p hp; simp at hp) hgdot hTt
    (fun _ _ => hTt1) (by intro h _; simp at h)
  have hseq : (':' :: ':' :: 'f' :: 'f' :: 'f' :: 'f' :: ':' :: IPv6.ipv4Dotted v)
      = List.intercalate [':'] ([] : List (List Char)) ++ ':' :: ':' ::
        List.intercalate [':'] [['f', 'f', 'f', 'f'], IPv6.ipv4Dotted v] := by
    rw [intercalate_cons₂, intercalate_single]
    rfl
  have hexp' : IPv6.expandStep true
      (':' :: ':' :: 'f' :: 'f' :: 'f' :: 'f' :: ':' :: IPv6.ipv4Dotted v)
      = .ok (List.intercalate [':']
          [['0'], ['0'], ['0'], ['0'], ['0'], ['f', 'f', 'f', 'f'], IPv6.ipv4Dotted v]) := by
    rw [hseq]
    exact hexp
  have hmemdot : ('.' : Char) ∈
      (':' :: 'f' :: 'f' :: 'f' :: 'f' :: ':' :: IPv6.ipv4Dotted v) := by
    simp [hddot]
  have hlidx : (0 : Int) < lastIndexOf '.'
      (':' :: ':' :: 'f' :: 'f' :: 'f' :: 'f' :: ':' :: IPv6.ipv4Dotted v) :=
    lastIndexOf_tail_pos hmemdot
  have hv4 : decide (0 < lastIndexOf '.'
      (':' :: ':' :: 'f' :: 'f' :: 'f' :: 'f' :: ':' :: IPv6.ipv4Dotted v)) = true :=
    decide_eq_true hlidx
  have hnle : ¬ lastIndexOf '.'
      (':' :: ':' :: 'f' :: 'f' :: 'f' :: 'f' :: ':' :: IPv6.ipv4Dotted v) ≤ 0 :=
    not_le.mpr hlidx
  have hjs : jsIndexOf ':'
      (':' :: ':' :: 'f' :: 'f' :: 'f' :: 'f' :: ':' :: IPv6.ipv4Dotted v) = 0 := rfl
  have hnlt : ¬ jsIndexOf ':'
      (':' :: ':' :: 'f' :: 'f' :: 'f' :: 'f' :: ':' :: IPv6.ipv4Dotted v) < 0 := by
    rw [hjs]
    decide
  have hsplit : (List.intercalate [':']
      [['0'], ['0'], ['0'], ['0'], ['0'], ['f', 'f', 'f', 'f'], IPv6.ipv4Dotted v]).splitOn ':'
      = [['0'], ['0'], ['0'], ['0'], ['0'], ['f', 'f', 'f', 'f'], IPv6.ipv4Dotted v] := by
    apply List.splitOn_intercalate
    · intro p hp
      simp only [List.mem_cons, List.not_mem_nil, or_false] at hp
      rcases hp with rfl | rfl | rfl | rfl | rfl | rfl | rfl
      · decide
      · decide
      · decide
      · decide
      · decide
      · decide
      · exact hdnc
    · simp
  have hgl : ([['0'], ['0'], ['0'], ['0'], ['0'], ['f', 'f', 'f', 'f'],
      IPv6.ipv4Dotted v]).getLastD [] = IPv6.ipv4Dotted v := rfl
  have hdl : ([['0'], ['0'], ['0'], ['0'], ['0'], ['f', 'f', 'f', 'f'],
      IPv6.ipv4Dotted v]).dropLast = [['0'], ['0'], ['0'], ['0'], ['0'], ['f', 'f', 'f', 'f']] :=
    rfl
  have hqsplit : (IPv6.ipv4Dotted v).splitOn '.'
      = [natToDec (v / 2 ^ 24 % 2 ^ 8), natToDec (v / 2 ^ 16 % 2 ^ 8),
         natToDec (v / 2 ^ 8 % 2 ^ 8), natToDec (v % 2 ^ 8)] := by
    rw [hdot]
    apply List.splitOn_intercalate
    · intro p hp
      simp only [List.mem_cons, List.not_mem_nil, or_false] at hp
      rcases hp with rfl | rfl | rfl | rfl <;>
        exact fun hc => hDdot _ _ hc rfl
    · simp
  have hquad := quadBytes_four (v / 2 ^ 24 % 2 ^ 8) (v / 2 ^ 16 % 2 ^ 8) (v / 2 ^ 8 % 2 ^ 8)
    (v % 2 ^ 8) (by omega) (by omega) (by omega) (by omega)
  have hg6 : HexGroups [['0'], ['0'], ['0'], ['0'], ['0'], ['f', 'f', 'f', 'f']] := by
    unfold HexGroups
    decide
  have hlen6 : (fixedHex 2 (v / 2 ^ 24 % 2 ^ 8) ++ (fixedHex 2 (v / 2 ^ 16 % 2 ^ 8) ++
      (fixedHex 2 (v / 2 ^ 8 % 2 ^ 8) ++ fixedHex 2 (v % 2 ^ 8)))).length = 8 := by
    simp [fixedHex_length]
  have hfin := finishGroups_ok hg6 (fixedHex 2 (v / 2 ^ 24 % 2 ^ 8) ++
      (fixedHex 2 (v / 2 ^ 16 % 2 ^ 8) ++ (fixedHex 2 (v / 2 ^ 8 % 2 ^ 8) ++
      fixedHex 2 (v % 2 ^ 8)))) (by rw [hlen6]; rfl)
  have hdiv : v / 2 ^ 32 = 0xffff := (isIPv4_div hv).mp h4
  have hvalue : parseHexNat
      (([['0'], ['0'], ['0'], ['0'], ['0'], ['f', 'f', 'f', 'f']].map
          (fun p => padStart 4 '0' (natToHex (parseHexNat p)))).flatten
        ++ (fixedHex 2 (v / 2 ^ 24 % 2 ^ 8) ++ (fixedHex 2 (v / 2 ^ 16 % 2 ^ 8) ++
          (fixedHex 2 (v / 2 ^ 8 % 2 ^ 8) ++ fixedHex 2 (v % 2 ^ 8))))) = v := by
    rw [parseHexNat_append, parseHexNat_append, parseHexNat_append, parseHexNat_append]
    simp only [fixedHex_length, List.length_append, parseHexNat_fixedHex]
    rw [show parseHexNat (([['0'], ['0'], ['0'], ['0'], ['0'], ['f', 'f', 'f', 'f']].map
        (fun p => padStart 4 '0' (natToHex (parseHexNat p)))).flatten) = 0xffff from by decide]
    omega
  rw [hvalue] at hfin
  unfold IPv6.fromStripped
  norm_num at hquad hfin
  simp [hv4, hnle, hnlt, hexp', hsplit, hgl, hdl, hqsplit, hquad, hfin]


theorem v4_render_no_space {v : Nat} (h4 : IPv6.isIPv4 v = true) (hv : v < 2 ^ 128) :
    ∀ c ∈ (':' :: ':' :: 'f' :: 'f' :: 'f' :: 'f' :: ':' :: []) ++ IPv6.ipv4Dotted v,
      isJsSpace c = false := by
  have hdot := ipv4Dotted_eq h4 hv
  intro c hc
  rcases List.mem_append.mp hc with h1 | h1
  · simp only [List.mem_cons, List.not_mem_nil, or_false] at h1
    rcases h1 with rfl | rfl | rfl | rfl | rfl | rfl | rfl <;> decide
  · rw [hdot] at h1
    rcases mem_join h1 with h2 | ⟨p, hp, hcp⟩
    · simp at h2
      subst h2
      decide
    · simp only [List.mem_cons, List.not_mem_nil, or_false] at hp
      rcases hp with rfl | rfl | rfl | rfl <;> exact decChar_not_space (mem_natToDec_dec hcp)

/-- Re-parsing the default rendering of any in-range value yields the value
back, covering both the IPv4-mapped dot-decimal form and the plain form. -/
theorem fromString_render {v : Nat} (hv : v < 2 ^ 128) :
    IPv6.fromString (IPv6.toIPv6String v true) = .ok v := by
  unfold IPv6.toIPv6String
  by_cases h4 : IPv6.isIPv4 v = true
  · rw [if_pos (by rw [h4]; rfl)]
    show IPv6.fromStripped (stripFirstSpaceRun _) = _
    rw [strip_of_no_space (v4_render_no_space h4 hv)]
    exact fromStripped_v4_mapped h4 hv
  · rw [if_neg (by simp [Bool.and_true, h4])]
    exact fromString_core hv

/-- The `IPv6` constructor on a string succeeds with `v` exactly when the
parser returns `v` and `v` is in range. -/
theorem construct_str_ok {s : List Char} {v : Nat} :
    IPv6.construct (.str s) = .ok v ↔ IPv6.fromString s = .ok v ∧ v ≤ IPv6.MAX := by
  have hred : IPv6.construct (.str s) = (do
      let w ← Except.map Int.ofNat (IPv6.fromString s)
      if (IPv6.MAX : Int) < w then throw "value has more than 128 bits"
      else if w < 0 then throw "value is negative"
      else pure w.toNat : Except String Nat) := rfl
  cases hfs : IPv6.fromString s with
  | error e =>
    have hce : IPv6.construct (.str s) = .error e := by
      rw [hred, hfs]
      rfl
    rw [hce]
    simp
  | ok w =>
    by_cases hw : w ≤ IPv6.MAX
    · have h1 : ¬ (IPv6.MAX : Int) < Int.ofNat w := by
        rw [not_lt]
        exact Int.ofNat_le.mpr hw
      have h2 : ¬ (Int.ofNat w : Int) < 0 := by
        rw [not_lt]
        exact Int.ofNat_nonneg w
      have hok : IPv6.construct (.str s) = .ok w := by
        rw [hred, hfs]
        show (if (IPv6.MAX : Int) < Int.ofNat w then throw "value has more than 128 bits"
          else if (Int.ofNat w : Int) < 0 then throw "value is negative"
          else pure (Int.ofNat w).toNat : Except String Nat) = _
        rw [if_neg h1, if_neg h2]
        rfl
      rw [hok]
      constructor
      · intro h
        obtain rfl := Except.ok.inj h
        exact ⟨rfl, hw⟩
      · rintro ⟨hv1, _⟩
        exact hv1
    · have h1 : (IPv6.MAX : Int) < Int.ofNat w :=
        Int.ofNat_lt.mpr (not_le.mp hw)
      have herr : IPv6.construct (.str s) = .error "value has more than 128 bits" := by
        rw [hred, hfs]
        show (if (IPv6.MAX : Int) < Int.ofNat w then throw "value has more than 128 bits"
          else if (Int.ofNat w : Int) < 0 then throw "value is negative"
          else pure (Int.ofNat w).toNat : Except String Nat) = _
        rw [if_pos h1]
        rfl
      rw [herr]
      constructor
      · intro h
        simp at h
      · rintro ⟨hv1, hv2⟩
        obtain rfl := Except.ok.inj hv1
        exact absurd hv2 hw

/-! ## Claim theorems: concrete evaluations -/

/-- C1: `HttpURL('Foo.org/a/./c/../B//%64/CR%9a?b=c;a=;C=%64#')` constructs
successfully and its canonical rendering is exactly
`"http://foo.org:80/a/B/d/CR%9A?C=d&a&b=c"`: scheme defaulted to `http`,
host lowercased, port defaulted to `80`, `%64` decoded to `d`, `%9a`
uppercased to `%9A`, the path segments `.`, `..` and `//` resolved, the
query sorted by name then value with `a=` rendered as `a`, and the empty
fragment dropped. -/
theorem claim1_end_to_end :
    (HttpURL.parse ("Foo.org/a/./c/../B//%64/CR%9a?b=c;a=;C=%64#".data)).map HttpURL.render
      = .ok ("http://foo.org:80/a/B/d/CR%9A?C=d&a&b=c".data) := by
  rfl

/-- C10: `toString` appends a non-empty fragment with no `#` separator:
`HttpURL('http://a/x#f')` renders as `"http://a:80/xf"`, and re-parsing
that rendering yields a URL whose path is `["xf"]` with no fragment, while
the original has path `["x"]` and fragment `"f"` — so the rendering of a
fragment-bearing URL does not re-parse to an equal URL. -/
theorem claim10_fragment_no_hash :
    (HttpURL.parse ("http://a/x#f".data)).map HttpURL.render
        = .ok ("http://a:80/xf".data) ∧
    (HttpURL.parse ("http://a/x#f".data)).map HttpURL.URL.path = .ok [['x']] ∧
    (HttpURL.parse ("http://a/x#f".data)).map HttpURL.URL.fragment = .ok (some ['f']) ∧
    (HttpURL.parse ("http://a:80/xf".data)).map HttpURL.URL.path = .ok [['x', 'f']] ∧
    (HttpURL.parse ("http://a:80/xf".data)).map HttpURL.URL.fragment = .ok none ∧
    HttpURL.parse ("http://a:80/xf".data) ≠ HttpURL.parse ("http://a/x#f".data) := by
  refine ⟨rfl, rfl, rfl, rfl, rfl, ?_⟩
  decide

/-- C3 (code bug): the claim (and the function's own documentation) says the
eight groups are rendered with leading zeros stripped also when no zero run
of length ≥ 2 exists; but on that branch the source joins the raw 4-digit
chunks of the padded hex string, so `1:2:3:4:5:6:7:8` renders as
`"0001:0002:0003:0004:0005:0006:0007:0008"`.  The two zero-run selection
examples from the claim do hold. -/
theorem claim3_padded_join_bug :
    IPv6.toIPv6String 0x00010002000300040005000600070008 true
        = ("0001:0002:0003:0004:0005:0006:0007:0008".data) ∧
    IPv6.fromString ("1:2:3:4:5:6:7:8".data)
        = .ok 0x00010002000300040005000600070008 ∧
    (IPv6.fromString ("1:0:0:4:0:0:7:8".data)).map (fun n => IPv6.toIPv6String n true)
        = .ok ("1::4:0:0:7:8".data) ∧
    (IPv6.fromString ("1:0:0:4:0:0:0:8".data)).map (fun n => IPv6.toIPv6String n true)
        = .ok ("1:0:0:4::8".data) := by
  exact ⟨rfl, rfl, rfl, rfl⟩

/-- C7 counterexample: the claim says the parser substitutes as many `0:`
groups as there are 16-bit groups present elsewhere in the string.  For
`"1::2"` two groups are present elsewhere, yet the expansion substitutes
six zero groups (the code inserts `(8 or 7) - (number of ':' characters)`
of them), producing `"1:0:0:0:0:0:0:2"`; the string parses to
`2^112 + 2`. -/
theorem claim7_counterexample :
    IPv6.expandStep false ("1::2".data) = .ok ("1:0:0:0:0:0:0:2".data) ∧
    ((("1::2".data).splitOn ':').filter (fun p => p ≠ [])).length = 2 ∧
    (("1:0:0:0:0:0:0:2".data).splitOn ':').count ['0'] = 6 ∧
    (6 : Nat) ≠ 2 ∧
    IPv6.fromString ("1::2".data) = .ok (2 ^ 112 + 2) := by
  exact ⟨rfl, by decide, by decide, by decide, rfl⟩

/-- C8 counterexample: the claim says a group of more than 4 hexadecimal
digits makes construction fail, but `"00001"` (five digits, value `1`)
is accepted: the source only checks `/^(\d|[a-f])+$/i` and the value range
`[0, 0xFFFF]`, not the digit count. -/
theorem claim8_counterexample :
    ("00001".data).length = 5 ∧
    IPv6.fromString ("00001:0:0:0:0:0:0:0".data) = .ok (2 ^ 112) := by
  exact ⟨by decide, rfl⟩

/-- C9 counterexample: the claim says any whitespace decoration of a valid
address string parses to the same value, but `/\s+/` without the `g` flag
removes only the first whitespace run: `"::1"` parses to `1` while
`" ::1 "` (both leading and trailing whitespace) fails to parse. -/
theorem claim9_counterexample :
    IPv6.fromString ("::1".data) = .ok 1 ∧
    IPv6.fromString (" ::1 ".data)
      = .error "Invalid IP v 6 address: RangeError: value is not a hexidecimal digit" := by
  exact ⟨rfl, rfl⟩

/-- C2: round-trip through the canonical rendering — for every string the
constructor accepts, constructing from the canonical IPv6 rendering of the
resulting value yields the same value. -/
theorem claim2_roundtrip (s : List Char) (v : Nat)
    (h : IPv6.construct (.str s) = .ok v) :
    IPv6.construct (.str (IPv6.toIPv6String v true)) = .ok v := by
  obtain ⟨h1, h2⟩ := construct_str_ok.mp h
  apply construct_str_ok.mpr
  refine ⟨fromString_render ?_, h2⟩
  have hm : IPv6.MAX = 2 ^ 128 - 1 := rfl
  omega

theorem claim2_witness :
    IPv6.construct (.str (IPv6.toIPv6String 1 true)) = .ok 1 :=
  claim2_roundtrip (':' :: ':' :: '1' :: []) 1 (by rfl)

/-- C4: the path-resolution walk over the `/`-split raw path: empty and `.`
segments are skipped, `..` pops the last pushed segment and is the
`Invalid path` error on an empty stack, any other segment is pushed
verbatim, and the final stack in order is the path.  Consequently
`http://a/a/b/c/../../.././/d` has path `["d"]`,
`http://a/a/b/c/../../.././/` has path `[]` with `isDir` true, and
`foo.com/a/../../b` fails with `Invalid path`. -/
theorem claim4_path_resolution :
    (∀ st segs, HttpURL.resolvePath st ([] :: segs) = HttpURL.resolvePath st segs)
    ∧ (∀ st segs, HttpURL.resolvePath st (['.'] :: segs) = HttpURL.resolvePath st segs)
    ∧ (∀ st segs, st ≠ [] →
        HttpURL.resolvePath st (['.', '.'] :: segs) = HttpURL.resolvePath st.dropLast segs)
    ∧ (∀ segs, HttpURL.resolvePath [] (['.', '.'] :: segs) = .error "Invalid path")
    ∧ (∀ st seg segs, seg ≠ [] → seg ≠ ['.'] → seg ≠ ['.', '.'] →
        HttpURL.resolvePath st (seg :: segs) = HttpURL.resolvePath (st ++ [seg]) segs)
    ∧ (∀ st, HttpURL.resolvePath st [] = .ok st)
    ∧ (HttpURL.parse ("http://a/a/b/c/../../.././/d".data)).map HttpURL.URL.path
        = .ok [['d']]
    ∧ (HttpURL.parse ("http://a/a/b/c/../../.././/".data)).map
        (fun u => (u.path, u.isDir)) = .ok ([], true)
    ∧ HttpURL.parse ("foo.com/a/../../b".data) = .error "Invalid path" := by
  refine ⟨fun st segs => rfl, fun st segs => rfl, ?_, fun segs => rfl, ?_, fun st => rfl,
    rfl, rfl, rfl⟩
  · intro st segs h
    simp [HttpURL.resolvePath, h]
  · intro st seg segs h1 h2 h3
    simp [HttpURL.resolvePath, h1, h2, h3]

theorem claim4_witness :
    HttpURL.resolvePath [['x']] [['.', '.']] = .ok ([] : List (List Char)) := by
  have h := claim4_path_resolution.2.2.1 [['x']] [] (by decide)
  exact h.trans (by decide)

/-- C5: `isIPv4` holds exactly when the bits above the low 32 equal the
`::ffff:0:0/96` prefix (for an in-range value: `v >> 32 == 0xffff`), and
`toIPv4String` succeeds exactly then, returning the dotted-decimal form of
the low 32 bits; otherwise it fails with the `Not an IPv4 address` error
whose message quotes the canonical IPv6 rendering of the value. -/
theorem claim5_ipv4_gate (v : Nat) (hv : v ≤ IPv6.MAX) :
    (IPv6.isIPv4 v = true ↔ v / 2 ^ 32 = 0xffff)
    ∧ ((∃ r, IPv6.toIPv4String v = .ok r) ↔ IPv6.isIPv4 v = true)
    ∧ (IPv6.isIPv4 v = true →
        IPv6.toIPv4String v = .ok (List.intercalate ['.']
          [natToDec (v / 2 ^ 24 % 2 ^ 8), natToDec (v / 2 ^ 16 % 2 ^ 8),
           natToDec (v / 2 ^ 8 % 2 ^ 8), natToDec (v % 2 ^ 8)]))
    ∧ (IPv6.isIPv4 v = false →
        IPv6.toIPv4String v
          = .error ("Not an IPv4 address:  \"" ++ (IPv6.toIPv6String v true).asString ++ "\"")) := by
  have hv128 : v < 2 ^ 128 := by
    have : IPv6.MAX = 2 ^ 128 - 1 := rfl
    omega
  refine ⟨isIPv4_div hv128, ?_, ?_, ?_⟩
  · constructor
    · intro ⟨r, hr⟩
      by_contra h4
      rw [IPv6.toIPv4String, if_neg (by simpa using h4)] at hr
      simp at hr
    · intro h4
      exact ⟨IPv6.ipv4Dotted v, by rw [IPv6.toIPv4String, if_pos h4]⟩
  · intro h4
    rw [IPv6.toIPv4String, if_pos h4, ipv4Dotted_eq h4 hv128]
  · intro h4
    rw [IPv6.toIPv4String, if_neg (by simp [h4])]

theorem claim5_witness :
    IPv6.toIPv4String 0xffff0a000001 = .ok ("10.0.0.1".data) := by
  have h := (claim5_ipv4_gate 0xffff0a000001 (by decide)).2.2.1 (by decide)
  exact h.trans (by decide)

/-- C6: `equals` is total — both-`null` is true, exactly one `null` is
false, two non-`null` operands are equal exactly when `compare` returns 0,
and a parse failure of a string operand makes `equals` false while the same
failure propagates out of `compare`. -/
theorem claim6_equals_total :
    IPv6.equals .nil .nil = true
    ∧ (∀ a : IPv6.Arg, a ≠ .nil → IPv6.equals a .nil = false ∧ IPv6.equals .nil a = false)
    ∧ (∀ a b : IPv6.Arg, a ≠ .nil → b ≠ .nil →
        (IPv6.equals a b = true ↔ IPv6.compare a b = .ok 0))
    ∧ (∀ (s : List Char) (b : IPv6.Arg) (e : String), IPv6.fromString s = .error e →
        IPv6.equals (.str s) b = false ∧ IPv6.compare (.str s) b = .error e) := by
  refine ⟨rfl, ?_, ?_, ?_⟩
  · intro a h
    constructor
    · simp [IPv6.equals, h]
    · simp [IPv6.equals, h]
  · intro a b ha hb
    rw [IPv6.equals, if_neg ha, if_pos hb]
    cases hc : IPv6.compare a b with
    | ok c => simp
    | error e => simp
  · intro s b e h
    have hcmp : IPv6.compare (.str s) b = .error e := by
      simp only [IPv6.compare, IPv6.toBigInt, h]
      rfl
    refine ⟨?_, hcmp⟩
    by_cases hb : b = IPv6.Arg.nil
    · subst hb
      rfl
    · rw [IPv6.equals, if_neg (by simp), if_pos hb, hcmp]

theorem claim6_witness : IPv6.equals (.big 1) (.big 1) = true :=
  (claim6_equals_total.2.2.1 (.big 1) (.big 1) (by decide) (by decide)).mpr rfl

/-- C7 (amended): for a string made of colon-joined groups around exactly
one `::` elision, the parser substitutes `(8, or 7 with an embedded IPv4
quad) − (number of ':' characters)` zero groups for the elision — i.e. the
missing-group count is derived from the colon count (a trailing quad part
counting as two groups, not one), and the expanded string has exactly
`8` groups (`7` parts when the last part is a quad). -/
theorem claim7_expansion (v4 : Bool) (ps ss : List (List Char))
    (hps : GoodParts ps) (hss : GoodParts ss)
    (hT : ps.length + ss.length ≤ if v4 then 7 else 8)
    (hps0 : ps = [] → ss ≠ [] → ps.length + ss.length + 1 ≤ if v4 then 7 else 8)
    (hss0 : ss = [] → ps ≠ [] → ps.length + ss.length + 1 ≤ if v4 then 7 else 8) :
    IPv6.expandStep v4 (List.intercalate [':'] ps ++ ':' :: ':' :: List.intercalate [':'] ss)
      = .ok (List.intercalate [':']
          (ps ++ List.replicate ((if v4 then 7 else 8) - (ps.length + ss.length)) ['0'] ++ ss))
    ∧ (ps ++ List.replicate ((if v4 then 7 else 8) - (ps.length + ss.length)) ['0'] ++ ss).length
        = if v4 then 7 else 8 := by
  refine ⟨expandStep_join v4 ps ss hps hss hT hps0 hss0, ?_⟩
  cases v4
  · simp only [Bool.false_eq_true, if_neg (fun h : False => h.elim)] at hT ⊢
    simp only [List.length_append, List.length_replicate]
    omega
  · simp only [if_pos rfl] at hT ⊢
    simp only [List.length_append, List.length_replicate]
    omega

theorem claim7_witness :
    IPv6.expandStep false (List.intercalate [':'] [['3']] ++ ':' :: ':' :: List.intercalate [':'] [['4']])
      = .ok (List.intercalate [':'] ([['3']] ++ List.replicate 6 ['0'] ++ [['4']])) :=
  (claim7_expansion false [['3']] [['4']]
    (by unfold GoodParts; decide) (by unfold GoodParts; decide) (by decide)
    (by intro h; simp at h) (by intro h; simp at h)).1

/-- C8 (amended): a `:`-group is accepted exactly when it is a non-empty
string of hexadecimal digits (of any length) whose value is at most
`0xFFFF`; the accepted value is the base-16 reading of the digits, and any
rejection is the `Invalid IP v 6 address` error. -/
theorem claim8_group_rule (p : List Char) :
    ((∃ n, IPv6.parseGroup p = .ok n)
        ↔ p ≠ [] ∧ p.all isHexDigitChar = true ∧ parseHexNat p ≤ 0xFFFF)
    ∧ (∀ n, IPv6.parseGroup p = .ok n → n = parseHexNat p)
    ∧ (∀ e, IPv6.parseGroup p = .error e → ∃ t, e = "Invalid IP v 6 address" ++ t) := by
  unfold IPv6.parseGroup IPv6.parseHex
  by_cases h : p ≠ [] ∧ p.all isHexDigitChar
  · rw [if_pos h]
    simp only []
    by_cases hb : 0xFFFF < parseHexNat p
    · rw [if_pos hb]
      refine ⟨⟨fun hcon => ?_, fun hcon => absurd hcon.2.2 (by omega)⟩,
        fun n hn => by simp at hn, fun e he => ⟨"", by cases he; rfl⟩⟩
      rcases hcon with ⟨n, hn⟩
      simp at hn
    · rw [if_neg hb]
      exact ⟨⟨fun _ => ⟨h.1, h.2, by omega⟩, fun _ => ⟨parseHexNat p, rfl⟩⟩,
        fun n hn => (Except.ok.inj hn).symm, fun e he => by simp at he⟩
  · rw [if_neg h]
    simp only []
    refine ⟨⟨fun hcon => ?_, fun hcon => absurd ⟨hcon.1, hcon.2.1⟩ h⟩,
      fun n hn => by simp at hn,
      fun e he => ⟨": RangeError: value is not a hexidecimal digit", by cases he; rfl⟩⟩
    rcases hcon with ⟨n, hn⟩
    simp at hn

theorem claim8_witness : ∃ n, IPv6.parseGroup ("00001".data) = .ok n :=
  (claim8_group_rule ("00001".data)).1.mpr (by decide)

/-- C9 (amended): `SPACEREGEX` lacks the `g` flag, so only the first
(leftmost, maximal) whitespace run is removed before parsing: a decoration
of a whitespace-free string with a single leading or a single trailing
whitespace run parses exactly like the bare string, but `" ::1 "` (two
separate runs) fails even though `"::1"` parses to `1`. -/
theorem claim9_first_run_only :
    (∀ s w : List Char, (∀ c ∈ s, isJsSpace c = false) → (∀ c ∈ w, isJsSpace c = true) →
      IPv6.fromString (w ++ s) = IPv6.fromString s
        ∧ IPv6.fromString (s ++ w) = IPv6.fromString s)
    ∧ IPv6.fromString ("::1".data) = .ok 1
    ∧ IPv6.fromString (" ::1 ".data)
        = .error "Invalid IP v 6 address: RangeError: value is not a hexidecimal digit" := by
  refine ⟨?_, rfl, rfl⟩
  intro s w hs hw
  unfold IPv6.fromString
  rw [strip_ws_append hw hs, strip_append_ws hs hw, strip_of_no_space hs]
  exact ⟨rfl, rfl⟩

theorem claim9_witness :
    IPv6.fromString (' ' :: "::1".data) = IPv6.fromString ("::1".data)
      ∧ IPv6.fromString ("::1".data ++ [' ']) = IPv6.fromString ("::1".data) :=
  claim9_first_run_only.1 ("::1".data) [' '] (by decide) (by decide)

end TsUrl
